import Mathlib

/-!
Verification of the arithmetic and elliptic-curve core of the asym-pkc
library (RSA, ElGamal, EC groups, interactive ZK) against its
natural-language specification.

The Rust sources operate on the external `bigint::U512` type; per the
specification (§3) all `U512` arithmetic wraps modulo `2 ^ 512`.  We embed
`U512` values as `Nat` together with explicit wrapping operations `umul`,
`uadd`, `usub` used exactly where the sources multiply, add or subtract
`U512` values whose ranges can reach the wrapping boundary.  Loops are
embedded either as folds over the explicit iteration range of the Rust
`for` loop or, for `while` loops, as structurally recursive functions on a
fuel argument that provably (or, for concrete evaluations, evidently)
dominates the number of iterations.

The crates' `constants.rs` files are not part of the sources; every
constant used below is modelled from the specification (§6) and marked
`Modelled from the spec`.
-/

set_option maxRecDepth 40000
set_option maxHeartbeats 1000000

namespace AsymPkc

/-- The wrapping modulus of the 512-bit integer type: spec §3 states that
all `U512` arithmetic wraps modulo `2 ^ 512`. -/
def U : Nat := 2 ^ 512

/-- Wrapping multiplication of two `U512` values. -/
def umul (a b : Nat) : Nat := a * b % U

/-- Wrapping addition of two `U512` values. -/
def uadd (a b : Nat) : Nat := (a + b) % U

/-- Wrapping subtraction of two `U512` values (defined for operands below
`2 ^ 512`, as all embedded values are). -/
def usub (a b : Nat) : Nat := (a + U - b) % U

/-- Mutual NAF recoding, from `src/ed25519/src/utils.rs` (the same function
is duplicated verbatim in `secp256k1_ecc/src/ecmult.rs` and
`curve25519_ecc/src/ecmult.rs`): `xh = x >> 1`, `x3 = x + xh`,
`c = xh XOR x3`, `np = x3 AND c`, `nm = xh AND c`. -/
def naf (x : Nat) : Nat × Nat :=
  let xh := x >>> 1
  let x3 := uadd x xh
  let c := xh ^^^ x3
  let np := x3 &&& c
  let nm := xh &&& c
  (np, nm)

/-- Loop body of `modinv` from `src/curve25519_ecc/src/euclidian.rs`
(duplicated in `ed25519/src/utils.rs`, `elgamal/src/euclidian.rs`,
`elgamal_dsa/src/euclidian.rs`, `rsa`): state `(a, m, x, inv)`; while
`a > 1`: `div = a / m`, `rem = a % m`; if `div*x > inv` then
`inv = p - ((div*x) % p - inv)` else `inv = (inv - div*x) % p`; then
`a = rem; swap(a, m); swap(x, inv)`.  The fuel argument strictly exceeds
the iteration count whenever `m ≤ fuel` (the second state component
strictly decreases). -/
def modinvGo (p : Nat) : Nat → Nat → Nat → Nat → Nat → Nat
  | 0, _a, _m, _x, inv => inv
  | fuel+1, a, m, x, inv =>
    if a ≤ 1 then inv
    else
      let dv := a / m
      let rem := a % m
      let inv2 :=
        if umul dv x > inv then usub p (usub (umul dv x % p) inv)
        else usub inv (umul dv x) % p
      modinvGo p fuel m rem inv2 x

/-- Extended-Euclidean modular inverse, from
`src/curve25519_ecc/src/euclidian.rs`: returns `1` when `p = 1`, otherwise
runs the loop above from `(a, m, x, inv) = (e, p, 0, 1)`. -/
def modinv (e p : Nat) : Nat :=
  if p = 1 then 1 else modinvGo p p e p 0 1

/-- Loop body of `mod_exp` from `src/elgamal_dsa/src/math.rs` (duplicated
in the other scheme crates): while `exp > 1`, square `x` modulo `f` and on
odd `exp` also fold `x` into `ret`; on exit return `(x * ret) % f`.  The
exponent halves every iteration, so any fuel at least the exponent
dominates the iteration count. -/
def modExpGo (f : Nat) : Nat → Nat → Nat → Nat → Nat
  | 0, ret, _e, x => umul x ret % f
  | fuel+1, ret, e, x =>
    if e ≤ 1 then umul x ret % f
    else if e % 2 = 0 then modExpGo f fuel ret (e >>> 1) (umul x x % f)
    else modExpGo f fuel (umul ret x % f) (e >>> 1) (umul x x % f)

/-- Square-and-multiply modular exponentiation `mod_exp(g, a, f)` from
`src/elgamal_dsa/src/math.rs`: `g = 0` returns `0`, `a = 0` returns `1`,
otherwise the right-to-left loop with `ret = 1`, `exp = a`, `x = g`. -/
def mod_exp (g a f : Nat) : Nat :=
  if g = 0 then 0 else if a = 0 then 1 else modExpGo f a 1 a g

/-- Fermat witness `flt(p)` from `src/rsa/src/flt.rs`: true iff
`mod_exp(i, p-1, p) = 1` for every `i` in `2..10`. -/
def flt (p : Nat) : Bool :=
  (List.range' 2 8).all (fun i => mod_exp i (p - 1) p == 1)

/-- RSA encryption from `src/rsa/src/lib.rs`:
`rsa_encrypt(m, N, e) = mod_exp(m, e, N)`. -/
def rsa_encrypt (m p1 p2 : Nat) : Nat := mod_exp m p2 p1

/-- RSA decryption from `src/rsa/src/lib.rs`: `pub_key = p*q`,
`sec_exp = (q-1)*(p-1)`, `dec = modinv(e, sec_exp)`, result
`mod_exp(c, dec, pub_key)`.  The two `assert!(flt(_))` guards of the
source appear as hypotheses of the theorems below. -/
def rsa_decrypt (c q p e : Nat) : Nat :=
  let pub_key := umul p q
  let sec_exp := umul (usub q 1) (usub p 1)
  let dec := modinv e sec_exp
  mod_exp c dec pub_key

/-- List of iteration indices of the Rust inclusive range `a..=b`. -/
def rustRangeInclusive (a b : Nat) : List Nat := List.range' a (b + 1 - a)

/-- List of iteration indices of the Rust exclusive range `a..b`. -/
def rustRange (a b : Nat) : List Nat := List.range' a (b - a)

namespace Secp

/-- Modelled from the spec: §6 names the secp256k1 prime `p` (the standard
value `2^256 - 2^32 - 977`); the crate's `constants.rs` is not among the
sources. -/
def FIELD_SIZE : Nat := 2 ^ 256 - 2 ^ 32 - 977

/-- Affine secp256k1 point, from `src/secp256k1_ecc/src/ecmult.rs`:
coordinates plus an `infinity` flag. -/
structure AffinePoint where
  x : Nat
  y : Nat
  infinity : Bool
deriving DecidableEq

/-- Constructor `AffinePoint::new` (infinity flag false). -/
def AffinePoint.new (x y : Nat) : AffinePoint := ⟨x, y, false⟩

/-- The `Default` instance: the point at infinity (coordinates zero). -/
def AffinePoint.default : AffinePoint := ⟨0, 0, true⟩

/-- The `PartialEq` implementation for secp256k1 points: component-wise
equality including the infinity flag. -/
def AffinePoint.eq (a b : AffinePoint) : Bool :=
  a.x == b.x && (a.y == b.y) && (a.infinity == b.infinity)

/-- Slope numerator/denominator pair, from `AffinePoint::slope`. -/
def AffinePoint.slope (self other : AffinePoint) (field : Nat) : Nat × Nat :=
  if self.eq other then
    (umul (umul 3 self.x % field) self.x % field, umul 2 self.y % field)
  else
    let y := if self.y > other.y then usub field (usub self.y other.y)
             else usub other.y self.y
    let x := if self.x > other.x then usub field (usub self.x other.x)
             else usub other.x self.x
    (y, x)

/-- Point addition `AffinePoint::add` from
`src/secp256k1_ecc/src/ecmult.rs` (lines 28-67), including the infinity
cases, the inverse-pair case and the `y3` expression with the source's
parenthesisation `f - (self.y - (lambda*t) % f)` in the second branch. -/
def AffinePoint.add (self other : AffinePoint) : AffinePoint :=
  let f := FIELD_SIZE
  if self.infinity then other
  else if other.infinity then self
  else if self.x = other.x ∧ self.y = usub f other.y then AffinePoint.default
  else
    let dydx := self.slope other f
    let dx := modinv dydx.2 f
    let lambda := umul dydx.1 dx % f
    let x3 :=
      if umul lambda lambda % f < uadd self.x other.x % f then
        usub f (usub (uadd self.x other.x % f) (umul lambda lambda % f))
      else
        usub (umul lambda lambda % f) (uadd self.x other.x % f)
    let y3 :=
      let t := if self.x > x3 then usub self.x x3 else usub f (usub x3 self.x)
      if umul lambda t > self.y then usub (umul lambda t) self.y % f
      else usub f (usub self.y (umul lambda t % f))
    AffinePoint.new x3 y3

/-- Doubling: `self.add(self)`. -/
def AffinePoint.double (self : AffinePoint) : AffinePoint := self.add self

/-- Mutable state of the secp256k1 `naf_ecmult` loop, extended with a
counter `iters` that increments exactly once per execution of the loop
body (the returned point ignores it). -/
structure NafState where
  res : AffinePoint
  garbage : AffinePoint
  multiplier : AffinePoint
  np : Nat
  nm : Nat
  iters : Nat
deriving DecidableEq

/-- One iteration of the secp256k1 `naf_ecmult` loop body (lines 103-116):
on a set `np` bit add `multiplier` to `res`; else on a set `nm` bit add
the negated multiplier `(multiplier.x, f - multiplier.y)`; else the dummy
`garbage = garbage.add(res)`; then shift `np`, `nm` and double
`multiplier`. -/
def nafStep (st : NafState) : NafState :=
  let f := FIELD_SIZE
  let res' :=
    if st.np &&& 1 = 1 then st.res.add st.multiplier
    else if st.nm &&& 1 = 1 then
      st.res.add (AffinePoint.new st.multiplier.x (usub f st.multiplier.y))
    else st.res
  let garbage' :=
    if st.np &&& 1 = 1 then st.garbage
    else if st.nm &&& 1 = 1 then st.garbage
    else st.garbage.add st.res
  ⟨res', garbage', st.multiplier.double, st.np >>> 1, st.nm >>> 1, st.iters + 1⟩

/-- The full `AffinePoint::naf_ecmult` loop state after the Rust loop
`for _ in 0..=256` (inclusive range). -/
def nafLoop (self : AffinePoint) (s : Nat) : NafState :=
  let npnm := naf s
  (rustRangeInclusive 0 256).foldl (fun st _ => nafStep st)
    ⟨AffinePoint.default, self, self, npnm.1, npnm.2, 0⟩

/-- NAF scalar multiplication `AffinePoint::naf_ecmult` from
`src/secp256k1_ecc/src/ecmult.rs` (lines 97-118). -/
def AffinePoint.naf_ecmult (self : AffinePoint) (s : Nat) : AffinePoint :=
  (nafLoop self s).res

/-- Number of executions of the `naf_ecmult` loop body. -/
def naf_ecmultSteps (self : AffinePoint) (s : Nat) : Nat :=
  (nafLoop self s).iters

end Secp

namespace Curve25519

/-- Modelled from the spec: §6 gives the Curve25519 prime
`p_25519 = 2^255 - 19`; the crate's `constants.rs` is not among the
sources. -/
def FIELD : Nat := 2 ^ 255 - 19

/-- Affine Montgomery point on Curve25519, from
`src/curve25519_ecc/src/ecmult.rs`. -/
structure MontgomeryPoint where
  x : Nat
  y : Nat
  infinity : Bool
deriving DecidableEq

/-- Constructor `MontgomeryPoint::new` (infinity flag false). -/
def MontgomeryPoint.new (x y : Nat) : MontgomeryPoint := ⟨x, y, false⟩

/-- The `Default` instance: the point at infinity (coordinates zero). -/
def MontgomeryPoint.default : MontgomeryPoint := ⟨0, 0, true⟩

/-- The `PartialEq` implementation from `src/curve25519_ecc/src/ecmult.rs`
(lines 142-147): `self.x == other.x && self.y == other.y &&
!self.infinity && !other.infinity`. -/
def MontgomeryPoint.eq (self other : MontgomeryPoint) : Bool :=
  self.x == other.x && self.y == other.y && !self.infinity && !other.infinity

/-- Doubling slope `MontgomeryPoint::implicit`:
`(3x^2 + 2*486662*x + 1) / (2y) mod f`. -/
def MontgomeryPoint.implicit (self : MontgomeryPoint) (f : Nat) : Nat :=
  let a : Nat := 486662
  let n := (umul 3 (umul self.x self.x % f) % f +
            umul 2 (umul a self.x % f) % f + 1) % f
  let dn := umul self.y 2 % f
  let dni := modinv dn f
  umul n dni % f

/-- Chord slope `MontgomeryPoint::slope` (doubling dispatches through the
`eq` test to `implicit`). -/
def MontgomeryPoint.slope (self other : MontgomeryPoint) (f : Nat) : Nat :=
  if self.eq other then self.implicit f
  else
    let n := if other.y > self.y then usub other.y self.y
             else usub f (usub self.y other.y)
    let dn := if other.x > self.x then usub other.x self.x
              else usub f (usub self.x other.x)
    let dni := modinv dn f
    umul dni n % f

/-- Point addition `MontgomeryPoint::add` from
`src/curve25519_ecc/src/ecmult.rs` (lines 13-38). -/
def MontgomeryPoint.add (self other : MontgomeryPoint) : MontgomeryPoint :=
  let f := FIELD
  if self.infinity then other
  else if other.infinity then self
  else if self.x = other.x ∧ self.y = usub f other.y then MontgomeryPoint.default
  else
    let a : Nat := 486662
    let lambda := self.slope other f
    let lambdaS := umul lambda lambda % f
    let lambdaC := umul lambdaS lambda % f
    let x3 :=
      if lambdaS > (a + self.x + other.x) % f then
        usub lambdaS ((a + self.x + other.x) % f)
      else
        usub f (usub ((a + self.x + other.x) % f) lambdaS)
    let o := (umul 2 self.x % f + other.x + a) % f
    let y3 :=
      if umul o lambda % f > (lambdaC + self.y) % f then
        usub (umul o lambda % f) ((lambdaC + self.y) % f)
      else
        usub f (usub ((lambdaC + self.y) % f) (umul o lambda % f))
    MontgomeryPoint.new x3 y3

/-- Doubling: `self.add(self)`. -/
def MontgomeryPoint.double (self : MontgomeryPoint) : MontgomeryPoint := self.add self

/-- Mutable state of the Curve25519 `naf_ecmult` loop, with the iteration
counter `iters`. -/
structure NafState where
  res : MontgomeryPoint
  garbage : MontgomeryPoint
  multiplier : MontgomeryPoint
  np : Nat
  nm : Nat
  iters : Nat
deriving DecidableEq

/-- One iteration of the Curve25519 `naf_ecmult` loop body (lines 59-72):
the `nm` branch adds the negated running multiple
`(multiplier.x, f - multiplier.y)`; the dummy branch is
`garbage = garbage.add(multiplier)`. -/
def nafStep (st : NafState) : NafState :=
  let f := FIELD
  let res' :=
    if st.np &&& 1 = 1 then st.res.add st.multiplier
    else if st.nm &&& 1 = 1 then
      st.res.add (MontgomeryPoint.new st.multiplier.x (usub f st.multiplier.y))
    else st.res
  let garbage' :=
    if st.np &&& 1 = 1 then st.garbage
    else if st.nm &&& 1 = 1 then st.garbage
    else st.garbage.add st.multiplier
  ⟨res', garbage', st.multiplier.double, st.np >>> 1, st.nm >>> 1, st.iters + 1⟩

/-- The full `MontgomeryPoint::naf_ecmult` loop state after the Rust loop
`for _ in 0..256` (exclusive range). -/
def nafLoop (self : MontgomeryPoint) (s : Nat) : NafState :=
  let npnm := naf s
  (rustRange 0 256).foldl (fun st _ => nafStep st)
    ⟨MontgomeryPoint.default, self, self, npnm.1, npnm.2, 0⟩

/-- NAF scalar multiplication `MontgomeryPoint::naf_ecmult` from
`src/curve25519_ecc/src/ecmult.rs` (lines 53-74). -/
def MontgomeryPoint.naf_ecmult (self : MontgomeryPoint) (s : Nat) : MontgomeryPoint :=
  (nafLoop self s).res

/-- Number of executions of the `naf_ecmult` loop body. -/
def naf_ecmultSteps (self : MontgomeryPoint) (s : Nat) : Nat :=
  (nafLoop self s).iters

end Curve25519

namespace Ed

/-- Modelled from the spec: §6 — the Ed25519 field prime `2^255 - 19`
(the `ed25519` crate's `constants.rs` is not among the sources). -/
def FIELD : Nat := 2 ^ 255 - 19

/-- Modelled from the spec: §6 — the twisted-Edwards coefficient
`d = -121665/121666 mod p_25519`. -/
def EDWARDS_COEFFICIENT : Nat :=
  umul (FIELD - 121665) (modinv 121666 FIELD) % FIELD

/-- Modelled from the spec: §6 — the x-coordinate of the Ed25519 base
point of RFC 8032. -/
def ED_GENX : Nat :=
  15112221349535400772501151409588531511454012693041857206046113283949847762202

/-- Modelled from the spec: §6 — the y-coordinate of the Ed25519 base
point of RFC 8032 (equal to `4/5 mod p_25519`). -/
def ED_GENY : Nat :=
  46316835694926478169428394003475163141307993866256225615783033603165251855960

/-- The branch-free modular difference closure `difference` used
throughout `src/ed25519`: `if x > y { x - y } else { f - (y - x) }`. -/
def difference (f x y : Nat) : Nat :=
  if x > y then usub x y else usub f (usub y x)

/-- Affine twisted-Edwards point, from `src/ed25519/src/edwards.rs`. -/
structure EdwardsPoint where
  x : Nat
  y : Nat
deriving DecidableEq

/-- Constructor `EdwardsPoint::new`. -/
def EdwardsPoint.new (x y : Nat) : EdwardsPoint := ⟨x, y⟩

/-- The `Default` instance: the Edwards identity `(0, 1)`. -/
def EdwardsPoint.default : EdwardsPoint := ⟨0, 1⟩

/-- The Ed25519 base point `EdwardsPoint::generator()`. -/
def EdwardsPoint.generator : EdwardsPoint := ⟨ED_GENX, ED_GENY⟩

/-- Unified Edwards addition `EdwardsPoint::add` from
`src/ed25519/src/edwards.rs` (lines 39-57). -/
def EdwardsPoint.add (self other : EdwardsPoint) : EdwardsPoint :=
  let f := FIELD
  let d := EDWARDS_COEFFICIENT
  let a := (umul self.x other.y % f + umul self.y other.x % f) % f
  let b := (umul (umul (umul (umul d self.x % f) other.x % f) self.y % f)
              other.y % f + 1) % f
  let c := (umul self.y other.y % f + umul self.x other.x % f) % f
  let e := difference f 1
    (umul (umul (umul (umul d self.x % f) other.x % f) self.y % f) other.y % f)
  let x3 := umul (modinv b f) a % f
  let y3 := umul (modinv e f) c % f
  EdwardsPoint.new x3 y3

/-- Dedicated doubling `EdwardsPoint::double` (lines 59-78). -/
def EdwardsPoint.double (self : EdwardsPoint) : EdwardsPoint :=
  let f := FIELD
  let xs := umul self.x self.x % f
  let ys := umul self.y self.y % f
  let a := umul (umul 2 self.x % f) self.y % f
  let b := difference f ys xs
  let c := (xs + ys) % f
  let d := difference f ((2 + xs) % f) ys
  let x3 := umul (modinv b f) a % f
  let y3 := umul (modinv d f) c % f
  EdwardsPoint.new x3 y3

/-- On-curve test `EdwardsPoint::valid` (lines 104-114):
`-x^2 + y^2 = 1 + d*x^2*y^2 mod p`. -/
def EdwardsPoint.valid (self : EdwardsPoint) : Bool :=
  let f := FIELD
  let d := EDWARDS_COEFFICIENT
  let a := umul self.x self.x % f
  let a2 := usub f a
  let b := umul self.y self.y % f
  let c := (a2 + b) % f
  let e := umul (umul (umul (umul d self.x % f) self.x % f) self.y % f) self.y % f
  let f2 := (e + 1) % f
  f2 == c

/-- Loop state of the affine Edwards `naf_ecmult`. -/
structure EdNafState where
  res : EdwardsPoint
  garbage : EdwardsPoint
  multiplier : EdwardsPoint
  np : Nat
  nm : Nat
deriving DecidableEq

/-- One iteration of the affine Edwards `naf_ecmult` loop body
(lines 87-100).  Note that the `nm` branch of the source adds the negated
base point `(f - self.x, self.y)` (`self` being the multiplication
argument), not the negated running multiple. -/
def edNafStep (base : EdwardsPoint) (st : EdNafState) : EdNafState :=
  let f := FIELD
  let res' :=
    if st.np &&& 1 = 1 then st.res.add st.multiplier
    else if st.nm &&& 1 = 1 then
      st.res.add (EdwardsPoint.new (usub f base.x) base.y)
    else st.res
  let garbage' :=
    if st.np &&& 1 = 1 then st.garbage
    else if st.nm &&& 1 = 1 then st.garbage
    else st.garbage.add st.multiplier
  ⟨res', garbage', st.multiplier.double, st.np >>> 1, st.nm >>> 1⟩

/-- NAF scalar multiplication `EdwardsPoint::naf_ecmult` from
`src/ed25519/src/edwards.rs` (lines 80-102): an early return gives back
`self` when `s = 0`; otherwise the loop `for _ in 0..256`. -/
def EdwardsPoint.naf_ecmult (self : EdwardsPoint) (s : Nat) : EdwardsPoint :=
  if s = 0 then self
  else
    let npnm := naf s
    ((rustRange 0 256).foldl (fun st _ => edNafStep self st)
      ⟨EdwardsPoint.default, self, self, npnm.1, npnm.2⟩).res

/-- Extended projective Edwards point, from
`src/ed25519/src/projective.rs`. -/
structure ProjectiveEdwardsPoint where
  x : Nat
  y : Nat
  z : Nat
  t : Nat
deriving DecidableEq

/-- Constructor `ProjectiveEdwardsPoint::new`. -/
def ProjectiveEdwardsPoint.new (x y z t : Nat) : ProjectiveEdwardsPoint := ⟨x, y, z, t⟩

/-- The `Default` instance: the extended identity `(0, 1, 1, 0)`. -/
def ProjectiveEdwardsPoint.default : ProjectiveEdwardsPoint := ⟨0, 1, 1, 0⟩

/-- Projection `ProjectiveEdwardsPoint::into_edwards` (lines 27-33). -/
def ProjectiveEdwardsPoint.into_edwards (self : ProjectiveEdwardsPoint) : EdwardsPoint :=
  let f := FIELD
  let z := modinv self.z f
  EdwardsPoint.new (umul self.x z % f) (umul self.y z % f)

/-- Projective addition `ProjectiveEdwardsPoint::assumption_add`
(lines 60-83), the variant used by the projective `naf_ecmult`. -/
def ProjectiveEdwardsPoint.assumption_add (self other : ProjectiveEdwardsPoint) :
    ProjectiveEdwardsPoint :=
  let f := FIELD
  let a := umul (difference f self.y self.x) ((other.x + other.y) % f) % f
  let b := umul ((self.y + self.x) % f) (difference f other.y other.x) % f
  let c := umul (umul 2 self.z % f) other.t % f
  let d := umul (umul 2 self.t % f) other.z % f
  let e := (d + c) % f
  let g := difference f b a
  let h := (b + a) % f
  let i := difference f d c
  ProjectiveEdwardsPoint.new (umul e g % f) (umul h i % f) (umul g h % f) (umul e i % f)

/-- Projective doubling `ProjectiveEdwardsPoint::double` (lines 109-132). -/
def ProjectiveEdwardsPoint.double (self : ProjectiveEdwardsPoint) : ProjectiveEdwardsPoint :=
  let f := FIELD
  let a := umul (umul 2 self.x % f) self.y % f
  let b := difference f ((umul (umul 2 self.z % f) self.z % f + umul self.x self.x % f) % f)
    (umul self.y self.y % f)
  let x3 := umul a b % f
  let c := difference f (umul self.y self.y % f) (umul self.x self.x % f)
  let d := (umul self.y self.y % f + umul self.x self.x % f) % f
  let y3 := umul c d % f
  let e := umul (umul 2 self.x % f) self.y % f
  let g := (umul self.y self.y % f + umul self.x self.x % f) % f
  let t3 := umul e g % f
  let h := difference f (umul self.y self.y % f) (umul self.x self.x % f)
  let i := difference f ((umul (umul 2 self.z % f) self.z % f + umul self.x self.x % f) % f)
    (umul self.y self.y % f)
  ProjectiveEdwardsPoint.new x3 y3 (umul h i % f) t3

/-- Loop state of the projective Edwards `naf_ecmult`. -/
structure ProjNafState where
  res : ProjectiveEdwardsPoint
  garbage : ProjectiveEdwardsPoint
  multiplier : ProjectiveEdwardsPoint
  np : Nat
  nm : Nat
deriving DecidableEq

/-- One iteration of the projective `naf_ecmult` loop body (lines 92-105);
as in the affine variant, the `nm` branch adds the negated base point
`(f - self.x, self.y, self.z, f - self.t)`. -/
def projNafStep (base : ProjectiveEdwardsPoint) (st : ProjNafState) : ProjNafState :=
  let f := FIELD
  let res' :=
    if st.np &&& 1 = 1 then st.res.assumption_add st.multiplier
    else if st.nm &&& 1 = 1 then
      st.res.assumption_add
        (ProjectiveEdwardsPoint.new (usub f base.x) base.y base.z (usub f base.t))
    else st.res
  let garbage' :=
    if st.np &&& 1 = 1 then st.garbage
    else if st.nm &&& 1 = 1 then st.garbage
    else st.garbage.assumption_add st.multiplier
  ⟨res', garbage', st.multiplier.double, st.np >>> 1, st.nm >>> 1⟩

/-- NAF scalar multiplication `ProjectiveEdwardsPoint::naf_ecmult` from
`src/ed25519/src/projective.rs` (lines 85-107), with the `s = 0` early
return of the source. -/
def ProjectiveEdwardsPoint.naf_ecmult (self : ProjectiveEdwardsPoint) (s : Nat) :
    ProjectiveEdwardsPoint :=
  if s = 0 then self
  else
    let npnm := naf s
    ((rustRange 0 256).foldl (fun st _ => projNafStep self st)
      ⟨ProjectiveEdwardsPoint.default, self, self, npnm.1, npnm.2⟩).res

/-- Modelled from the spec: §6 — the full-coordinate Curve25519 generator
has `x = 9` (constant `GENERATOR_X` of the `ed25519` crate). -/
def GENERATOR_X : Nat := 9

/-- Modelled from the spec: §6 — the canonical even-parity y-coordinate of
the Curve25519 generator `(9, Y)` (constant `GENERATOR_Y`). -/
def GENERATOR_Y : Nat :=
  43114425171068552920764898935933967039370386198203806730763910166200978582548

/-- Modelled from the spec: §6 — the Ed25519 base-point order, the 253-bit
prime `2^252 + 27742317777372353535851937790883648493` (constant
`PRIME_ORDER` of the `ed25519` crate; §6 calls it the "Ed25519 base-point
order (a 253-bit prime)"). -/
def PRIME_ORDER : Nat := 2 ^ 252 + 27742317777372353535851937790883648493

/-- Affine Montgomery point of the `ed25519` crate, from
`src/ed25519/src/montgomery.rs`. -/
structure MontgomeryPoint where
  x : Nat
  y : Nat
  infinity : Bool
deriving DecidableEq

/-- Constructor `MontgomeryPoint::new` (infinity flag false). -/
def MontgomeryPoint.new (x y : Nat) : MontgomeryPoint := ⟨x, y, false⟩

/-- The `Default` instance: the point at infinity. -/
def MontgomeryPoint.default : MontgomeryPoint := ⟨0, 0, true⟩

/-- The Curve25519 generator `MontgomeryPoint::generator()`. -/
def MontgomeryPoint.generator : MontgomeryPoint := ⟨GENERATOR_X, GENERATOR_Y, false⟩

/-- Equality method `MontgomeryPoint::eq` (lines 133-135): false whenever
either operand is the point at infinity. -/
def MontgomeryPoint.eq (self other : MontgomeryPoint) : Bool :=
  !self.infinity && !other.infinity && self.x == other.x && self.y == other.y

/-- Doubling slope `MontgomeryPoint::implicit` (lines 119-125). -/
def MontgomeryPoint.implicit (self : MontgomeryPoint) (f : Nat) : Nat :=
  let a : Nat := 486662
  let n := (umul 3 (umul self.x self.x % f) % f +
            umul 2 (umul a self.x % f) % f + 1) % f
  let dn := umul self.y 2 % f
  let dni := modinv dn f
  umul n dni % f

/-- Chord slope `MontgomeryPoint::slope` (lines 99-117). -/
def MontgomeryPoint.slope (self other : MontgomeryPoint) (f : Nat) : Nat :=
  if self.eq other then self.implicit f
  else
    let n := if other.y > self.y then usub other.y self.y
             else usub f (usub self.y other.y)
    let dn := if other.x > self.x then usub other.x self.x
              else usub f (usub self.x other.x)
    let dni := modinv dn f
    umul dni n % f

/-- Point addition `MontgomeryPoint::add` from
`src/ed25519/src/montgomery.rs` (lines 25-50). -/
def MontgomeryPoint.add (self other : MontgomeryPoint) : MontgomeryPoint :=
  let f := FIELD
  if self.infinity then other
  else if other.infinity then self
  else if self.x = other.x ∧ self.y = usub f other.y then MontgomeryPoint.default
  else
    let a : Nat := 486662
    let lambda := self.slope other f
    let lambdaS := umul lambda lambda % f
    let lambdaC := umul lambdaS lambda % f
    let x3 :=
      if lambdaS > (a + self.x + other.x) % f then
        usub lambdaS ((a + self.x + other.x) % f)
      else
        usub f (usub ((a + self.x + other.x) % f) lambdaS)
    let o := (umul 2 self.x % f + other.x + a) % f
    let y3 :=
      if umul o lambda % f > (lambdaC + self.y) % f then
        usub (umul o lambda % f) ((lambdaC + self.y) % f)
      else
        usub f (usub ((lambdaC + self.y) % f) (umul o lambda % f))
    MontgomeryPoint.new x3 y3

/-- Loop body of the plain double-and-add helper `fast_pow` of
`src/ed25519/src/window.rs` (lines 111-130); identical to `mod_exp` but
without modular reduction. -/
def fastPowGo : Nat → Nat → Nat → Nat → Nat
  | 0, ret, _e, x => umul x ret
  | fuel+1, ret, e, x =>
    if e ≤ 1 then umul x ret
    else if e % 2 = 0 then fastPowGo fuel ret (e >>> 1) (umul x x)
    else fastPowGo fuel (umul ret x) (e >>> 1) (umul x x)

/-- Integer power `fast_pow(g, a)` from `src/ed25519/src/window.rs`. -/
def fast_pow (g a : Nat) : Nat :=
  if g = 0 then 0 else if a = 0 then 1 else fastPowGo a 1 a g

/-- Loop of the table-filling scalar multiplication `non_ct_ecmult` of
`src/ed25519/src/window.rs` (lines 93-109): while `np ≠ 0 ∨ nm ≠ 0`,
conditionally add `multiplier` or its `f`-negation (there is no dummy
branch), shift and double.  Both NAF masks are below `2 ^ 513`, so 520
units of fuel strictly dominate the iteration count. -/
def nonCtGo (f : Nat) : Nat → MontgomeryPoint → MontgomeryPoint → Nat → Nat → MontgomeryPoint
  | 0, res, _mult, _np, _nm => res
  | fuel+1, res, mult, np, nm =>
    if np = 0 ∧ nm = 0 then res
    else
      let res' :=
        if np &&& 1 = 1 then res.add mult
        else if nm &&& 1 = 1 then res.add (MontgomeryPoint.new mult.x (usub f mult.y))
        else res
      nonCtGo f fuel res' (mult.add mult) (np >>> 1) (nm >>> 1)

/-- Non-constant-time scalar multiplication `non_ct_ecmult(s, p, f)` from
`src/ed25519/src/window.rs`.  The `f` argument is the modulus used for
point negation in the `nm` branch. -/
def non_ct_ecmult (s : Nat) (p : MontgomeryPoint) (f : Nat) : MontgomeryPoint :=
  let npnm := naf s
  nonCtGo f 520 MontgomeryPoint.default p npnm.1 npnm.2

/-- Inner loop of `LookupTable::initialize_window8` (lines 76-84),
producing the row of table entries for byte values `j, j+1, ...`: each
entry is `non_ct_ecmult(m * j, r, PRIME_ORDER)`, and after the `j = 0`
entry the base `r` (initially the default point) is replaced by
`r.add(g)`. -/
def window8Entries (g : MontgomeryPoint) (m : Nat) : Nat → MontgomeryPoint → Nat → List MontgomeryPoint
  | 0, _r, _j => []
  | count+1, r, j =>
    non_ct_ecmult (umul m j) r PRIME_ORDER ::
      window8Entries g m count (if j = 0 then r.add g else r) (j + 1)

/-- Row `i` of the window-8 table: the multiplier is
`m = fast_pow(2, 8*i)` and the inner loop runs over the 256 byte values
`0..=255` starting from the default (infinity) accumulator, exactly as in
`LookupTable::initialize_window8`. -/
def window8Row (i : Nat) : List MontgomeryPoint :=
  window8Entries MontgomeryPoint.generator (fast_pow 2 (8 * i)) 256 MontgomeryPoint.default 0

/-- The window-8 lookup table built by `LookupTable::initialize_window8`
(`src/ed25519/src/window.rs`, lines 67-86), as the function
`(i, j) ↦ table[i][j]`. -/
def initialize_window8 (i j : Nat) : MontgomeryPoint :=
  (window8Row i).getD j MontgomeryPoint.default

/-- Windowed multiplication `MontgomeryPoint::wNAF8` from
`src/ed25519/src/montgomery.rs` (lines 90-97): sum the 32 table entries
selected by the little-endian scalar bytes. -/
def wNAF8 (s : List Nat) (lt : Nat → Nat → MontgomeryPoint) : MontgomeryPoint :=
  (rustRange 0 32).foldl (fun res i => res.add (lt i (s.getD i 0))) MontgomeryPoint.default

end Ed

namespace Izk

/-- Verifier check `verify(z, N, s, y, challenge)` from
`src/interactive_zero_knowledge/src/lib.rs` (lines 68-72): computes
`ch = z*z % N` and accepts iff `ch = s` when the challenge is `0`, else
iff `ch = (y*s) % N`. -/
def verify (z n s y challenge : Nat) : Bool :=
  let ch := umul z z % n
  if challenge = 0 then ch == s else ch == umul y s % n

/-- The rounds of `convince` (lines 24-39) with the randomness
externalised: each list element supplies the round's commitment random `r`
(drawn as a `u64` in the source) and the challenge bit `b`; the round
computes the commitment `nr = r*r % N`, the response `z = r % N` for `b =
0` and `z = (r*x) % N` for `b = 1`, and stops with `false` as soon as
`verify` rejects. -/
def convinceRounds (n y x : Nat) : List (Nat × Bool) → Bool
  | [] => true
  | (r, b) :: rest =>
    let nr := umul r r % n
    let z := if b then umul r x % n else r % n
    if verify z n nr y (if b then 1 else 0) then convinceRounds n y x rest
    else false

/-- The proof `convince(p, q, x)` from
`src/interactive_zero_knowledge/src/lib.rs` (lines 21-41), parameterised
by the per-round randomness: `N = p*q`, `y = x*x % N`, then the rounds. -/
def convinceWith (p q x : Nat) (rounds : List (Nat × Bool)) : Bool :=
  let n := umul p q
  let y := umul x x % n
  convinceRounds n y x rounds

end Izk

/-- A 254-bit prime with smooth p - 1 = 2^247 * 75, used as a concrete
RSA factor whose modulus with 11 exceeds 2^256; primality is certified
below with a Lucas witness. -/
def p247 : Nat := 75 * 2 ^ 247 + 1

/-!
The definitions above embed all the program fragments the claims mention;
everything below is proof.
-/

theorem umul_eq (a b : Nat) (h : a * b < U) : umul a b = a * b := Nat.mod_eq_of_lt h

theorem uadd_eq (a b : Nat) (h : a + b < U) : uadd a b = a + b := Nat.mod_eq_of_lt h

theorem usub_eq (a b : Nat) (hba : b ≤ a) (ha : a < U) : usub a b = a - b := by
  unfold usub
  rw [show a + U - b = (a - b) + U by omega, Nat.add_mod_right]
  exact Nat.mod_eq_of_lt (by omega)

theorem U_pos : 0 < U := by unfold U; exact Nat.two_pow_pos 512

theorem two_pow_255_lt_U : 2 ^ 255 < U := by
  unfold U; exact Nat.pow_lt_pow_right (by omega) (by omega)

theorem two_pow_256_lt_U : 2 ^ 256 < U := by
  unfold U; exact Nat.pow_lt_pow_right (by omega) (by omega)

theorem Curve25519.FIELD_lt_U : Curve25519.FIELD < U := by
  have h := two_pow_255_lt_U
  unfold Curve25519.FIELD
  omega

/-- Helper for C2: the iteration counter of the secp256k1 loop body
increments by one per execution. -/
theorem Secp.foldl_secpNafStep_iters (l : List Nat) :
    ∀ st : Secp.NafState,
      (l.foldl (fun st _ => Secp.nafStep st) st).iters = st.iters + l.length := by
  induction l with
  | nil => intro st; simp
  | cons a t ih =>
    intro st
    have hstep : (Secp.nafStep st).iters = st.iters + 1 := rfl
    simp only [List.foldl_cons, ih, hstep, List.length_cons]
    omega

/-- Helper for C2: the iteration counter of the Curve25519 loop body
increments by one per execution. -/
theorem Curve25519.foldl_montNafStep_iters (l : List Nat) :
    ∀ st : Curve25519.NafState,
      (l.foldl (fun st _ => Curve25519.nafStep st) st).iters = st.iters + l.length := by
  induction l with
  | nil => intro st; simp
  | cons a t ih =>
    intro st
    have hstep : (Curve25519.nafStep st).iters = st.iters + 1 := rfl
    simp only [List.foldl_cons, ih, hstep, List.length_cons]
    omega

/-- Helper for C2: the secp256k1 loop executes 257 iterations. -/
theorem Secp.secp_naf_ecmultSteps_eq (P : Secp.AffinePoint) (s : Nat) :
    Secp.naf_ecmultSteps P s = 257 := by
  unfold Secp.naf_ecmultSteps Secp.nafLoop
  rw [Secp.foldl_secpNafStep_iters]
  rfl

/-- Helper for C2: the Curve25519 loop executes 256 iterations. -/
theorem Curve25519.mont_naf_ecmultSteps_eq (P : Curve25519.MontgomeryPoint) (s : Nat) :
    Curve25519.naf_ecmultSteps P s = 256 := by
  unfold Curve25519.naf_ecmultSteps Curve25519.nafLoop
  rw [Curve25519.foldl_montNafStep_iters]
  rfl

/-- C2 (counterexample): at the concrete base point `(1, 1)` and scalar
`5`, the secp256k1 `naf_ecmult` loop body executes 257 times, not 256 —
the Rust range `0..=256` is inclusive. -/
theorem secp_naf_loop_not_256_iterations :
    Secp.naf_ecmultSteps ⟨1, 1, false⟩ 5 ≠ 256 := by
  rw [Secp.secp_naf_ecmultSteps_eq]
  omega

/-- C2 (amended): for every base point and every scalar `s`, the
secp256k1 `naf_ecmult` loop executes exactly 257 iterations (its Rust
range `0..=256` is inclusive) and the Curve25519 `naf_ecmult` loop
exactly 256; both counts are constants, independent of `s`. -/
theorem naf_loops_constant_iteration_counts (P : Secp.AffinePoint)
    (Q : Curve25519.MontgomeryPoint) (s t : Nat) :
    Secp.naf_ecmultSteps P s = 257 ∧ Curve25519.naf_ecmultSteps Q t = 256 :=
  ⟨Secp.secp_naf_ecmultSteps_eq P s, Curve25519.mont_naf_ecmultSteps_eq Q t⟩

/-- C9: with the zero scalar, the Ed25519 affine and extended-projective
scalar multiplications return the base point itself via the early-return
branch, not the identity: `naf_ecmult(P, 0) = P` for every `P` of either
representation, and at the Ed25519 base point (affine, and its extended
lift `(x, y, 1, x*y mod p)`) the result differs from the identity
`(0, 1)` resp. `(0, 1, 1, 0)`. -/
theorem ed25519_naf_ecmult_zero_returns_base (P : Ed.EdwardsPoint)
    (Q : Ed.ProjectiveEdwardsPoint) :
    P.naf_ecmult 0 = P ∧ Q.naf_ecmult 0 = Q ∧
    Ed.EdwardsPoint.generator.naf_ecmult 0 ≠ Ed.EdwardsPoint.default ∧
    (Ed.ProjectiveEdwardsPoint.new Ed.ED_GENX Ed.ED_GENY 1
        (umul Ed.ED_GENX Ed.ED_GENY % Ed.FIELD)).naf_ecmult 0 ≠
      Ed.ProjectiveEdwardsPoint.default := by
  refine ⟨by simp [Ed.EdwardsPoint.naf_ecmult], by simp [Ed.ProjectiveEdwardsPoint.naf_ecmult],
    ?_, ?_⟩
  · decide
  · decide

/-- C1 (code divergence, evaluated at the failing input): the Ed25519
base point is on the curve, yet the affine `EdwardsPoint::naf_ecmult`
returns `7·G` for the scalar `6` — because its `nm` branch adds the
negation of the base point instead of the negation of the running
multiple `2^i·G`, the NAF digits `6 = 8 - 2` are evaluated as
`8·G - 1·G = 7·G`.  The reference multiples `6·G = 2·(2·G + G)` and
`7·G = 6·G + G` are computed with the crate's own complete affine
addition and doubling. -/
theorem ed25519_naf_ecmult_negates_base_not_multiplier :
    Ed.EdwardsPoint.generator.valid = true ∧
    Ed.EdwardsPoint.generator.naf_ecmult 6 =
      ((Ed.EdwardsPoint.generator.double.add Ed.EdwardsPoint.generator).double.add
        Ed.EdwardsPoint.generator) ∧
    Ed.EdwardsPoint.generator.naf_ecmult 6 ≠
      (Ed.EdwardsPoint.generator.double.add Ed.EdwardsPoint.generator).double := by
  refine ⟨by decide, by decide, by decide⟩

/-- C7 (code divergence, evaluated at the failing input): in the window-8
table built by `LookupTable::initialize_window8`, the entry `(0, 1)` is
the generator `1·G` as the claim states, but the entry `(0, 3)` is not
`3·2^0·G`: the table filler `non_ct_ecmult` negates points with the
modulus `PRIME_ORDER` (the Ed25519 base-point order) instead of the field
prime, so every entry whose byte value has a negative NAF digit is wrong. -/
theorem window8_table_entry_0_3_wrong :
    Ed.initialize_window8 0 1 = Ed.MontgomeryPoint.generator ∧
    Ed.initialize_window8 0 3 ≠
      (Ed.MontgomeryPoint.generator.add Ed.MontgomeryPoint.generator).add
        Ed.MontgomeryPoint.generator := by
  refine ⟨by decide, by decide⟩

/-- C10: equality on the Curve25519 `MontgomeryPoint` is coordinate-wise
between non-infinity points but returns false whenever either operand has
the infinity flag set; in particular the point at infinity
(`MontgomeryPoint::default()`, or `add(P, negate(P))` for a reduced `P`)
compares unequal to itself. -/
theorem curve25519_eq_false_at_infinity :
    (∀ a b : Curve25519.MontgomeryPoint,
      Curve25519.MontgomeryPoint.eq a b = true ↔
        a.x = b.x ∧ a.y = b.y ∧ a.infinity = false ∧ b.infinity = false) ∧
    Curve25519.MontgomeryPoint.eq Curve25519.MontgomeryPoint.default
      Curve25519.MontgomeryPoint.default = false ∧
    (∀ P : Curve25519.MontgomeryPoint, P.infinity = false → P.y ≤ Curve25519.FIELD →
      P.add (Curve25519.MontgomeryPoint.new P.x (usub Curve25519.FIELD P.y)) =
          Curve25519.MontgomeryPoint.default ∧
        Curve25519.MontgomeryPoint.eq
          (P.add (Curve25519.MontgomeryPoint.new P.x (usub Curve25519.FIELD P.y)))
          (P.add (Curve25519.MontgomeryPoint.new P.x (usub Curve25519.FIELD P.y))) = false) := by
  refine ⟨?_, by decide, ?_⟩
  · intro a b
    unfold Curve25519.MontgomeryPoint.eq
    simp only [Bool.and_eq_true, beq_iff_eq, Bool.not_eq_true']
    tauto
  · intro P hinf hy
    have hU := Curve25519.FIELD_lt_U
    have h1 : usub Curve25519.FIELD P.y = Curve25519.FIELD - P.y :=
      usub_eq _ _ hy hU
    have h2 : usub Curve25519.FIELD (Curve25519.FIELD - P.y) = P.y := by
      rw [usub_eq _ _ (by omega) hU]; omega
    have hadd : P.add (Curve25519.MontgomeryPoint.new P.x (usub Curve25519.FIELD P.y)) =
        Curve25519.MontgomeryPoint.default := by
      unfold Curve25519.MontgomeryPoint.add
      rw [hinf]
      simp [Curve25519.MontgomeryPoint.new, h1, h2]
    exact ⟨hadd, by rw [hadd]; decide⟩

/-- C10 (witness): at the concrete reduced point `(9, 100)`, the sum with
its negation is the point at infinity and compares unequal to itself. -/
theorem curve25519_eq_false_at_infinity_witness :
    ((⟨9, 100, false⟩ : Curve25519.MontgomeryPoint).add
        (Curve25519.MontgomeryPoint.new 9 (usub Curve25519.FIELD 100)) =
      Curve25519.MontgomeryPoint.default) ∧
    Curve25519.MontgomeryPoint.eq
      ((⟨9, 100, false⟩ : Curve25519.MontgomeryPoint).add
        (Curve25519.MontgomeryPoint.new 9 (usub Curve25519.FIELD 100)))
      ((⟨9, 100, false⟩ : Curve25519.MontgomeryPoint).add
        (Curve25519.MontgomeryPoint.new 9 (usub Curve25519.FIELD 100))) = false :=
  curve25519_eq_false_at_infinity.2.2 ⟨9, 100, false⟩ rfl (by decide)

/-!  NAF recoding (C3). -/

/-- Binary expansion: the first `n` bits of `x` sum to `x % 2 ^ n`. -/
theorem sum_testBit_eq_mod (x : Nat) :
    ∀ n : Nat, (∑ i ∈ Finset.range n, 2 ^ i * (x.testBit i).toNat) = x % 2 ^ n := by
  intro n
  induction n with
  | zero => simp [Nat.mod_one]
  | succ n ih =>
    rw [Finset.sum_range_succ, ih, Nat.mod_pow_succ]
    have h2 : (x.testBit n).toNat = x / 2 ^ n % 2 := by
      rw [Nat.testBit_to_div_mod]
      rcases Nat.mod_two_eq_zero_or_one (x / 2 ^ n) with h | h <;> simp [h]
    rw [h2]

/-- No-two-adjacent-bits predicate used while reasoning about the NAF
masks. -/
def NoAdj (n : Nat) : Prop := ∀ i, ¬(n.testBit i = true ∧ n.testBit (i + 1) = true)

theorem testBit_two_mul (a i : Nat) : (2 * a).testBit (i + 1) = a.testBit i := by
  rw [Nat.testBit_add_one, Nat.mul_div_cancel_left a (by omega)]

theorem testBit_two_mul_zero (a : Nat) : (2 * a).testBit 0 = false := by
  rw [Nat.testBit_zero]
  simp [Nat.mul_mod_right]

theorem testBit_two_mul_add_one (a i : Nat) : (2 * a + 1).testBit (i + 1) = a.testBit i := by
  rw [Nat.testBit_add_one]
  have : (2 * a + 1) / 2 = a := by omega
  rw [this]

theorem testBit_two_mul_add_one_zero (a : Nat) : (2 * a + 1).testBit 0 = true := by
  rw [Nat.testBit_zero]
  simp [Nat.add_mul_mod_self_left, Nat.mul_add_mod]

theorem two_mul_xor_two_mul (a b : Nat) : (2 * a) ^^^ (2 * b) = 2 * (a ^^^ b) := by
  apply Nat.eq_of_testBit_eq
  intro i
  cases i with
  | zero => simp [testBit_two_mul_zero]
  | succ i => simp [testBit_two_mul, Nat.testBit_xor]

theorem two_mul_add_one_xor_two_mul_add_one (a b : Nat) :
    (2 * a + 1) ^^^ (2 * b + 1) = 2 * (a ^^^ b) := by
  apply Nat.eq_of_testBit_eq
  intro i
  cases i with
  | zero => simp [testBit_two_mul_zero, testBit_two_mul_add_one_zero]; omega
  | succ i => simp [testBit_two_mul, testBit_two_mul_add_one, Nat.testBit_xor]

theorem two_mul_xor_two_mul_add_one (a b : Nat) :
    (2 * a) ^^^ (2 * b + 1) = 2 * (a ^^^ b) + 1 := by
  apply Nat.eq_of_testBit_eq
  intro i
  cases i with
  | zero => simp [testBit_two_mul_zero, testBit_two_mul_add_one_zero]; omega
  | succ i => simp [testBit_two_mul, testBit_two_mul_add_one, Nat.testBit_xor]

theorem two_mul_add_one_xor_two_mul (a b : Nat) :
    (2 * a + 1) ^^^ (2 * b) = 2 * (a ^^^ b) + 1 := by
  apply Nat.eq_of_testBit_eq
  intro i
  cases i with
  | zero => simp [testBit_two_mul_zero, testBit_two_mul_add_one_zero]; omega
  | succ i => simp [testBit_two_mul, testBit_two_mul_add_one, Nat.testBit_xor]

theorem noAdj_two_mul {n : Nat} (h : NoAdj n) : NoAdj (2 * n) := by
  intro i
  cases i with
  | zero => simp [testBit_two_mul_zero]
  | succ i =>
    rw [testBit_two_mul, testBit_two_mul]
    exact h i

theorem noAdj_two_mul_add_one {n : Nat} (h : NoAdj n) (h0 : n % 2 = 0) :
    NoAdj (2 * n + 1) := by
  intro i
  cases i with
  | zero =>
    rw [testBit_two_mul_add_one, Nat.testBit_zero]
    simp [h0]
  | succ i =>
    rw [testBit_two_mul_add_one, testBit_two_mul_add_one]
    exact h i

theorem noAdj_zero : NoAdj 0 := by
  intro i
  simp

theorem noAdj_one : NoAdj 1 := by
  intro i
  cases i with
  | zero => simp [Nat.testBit_add_one]
  | succ i => simp [Nat.testBit_add_one]

theorem noAdj_two : NoAdj 2 := by
  have h := noAdj_two_mul noAdj_one
  simpa using h

/-- Core of the NAF non-adjacency argument: a simultaneous induction on
the three xor patterns `u ^^^ 3u`, `u ^^^ (3u+1)`, `u ^^^ (3u+2)`. -/
theorem noAdj_xor_three_mul (u : Nat) :
    NoAdj (u ^^^ 3 * u) ∧ NoAdj (u ^^^ (3 * u + 1)) ∧ NoAdj (u ^^^ (3 * u + 2)) ∧
      (u ^^^ 3 * u) % 2 = 0 ∧ (u ^^^ (3 * u + 2)) % 2 = 0 := by
  induction u using Nat.strong_induction_on with
  | _ u ih =>
    by_cases hu : u = 0
    · subst hu
      refine ⟨by simpa using noAdj_zero, by simpa using noAdj_one, by simpa using noAdj_two,
        by decide, by decide⟩
    · rcases Nat.even_or_odd u with he | ho
      · obtain ⟨v, hv⟩ := he
        have hv2 : u = 2 * v := by omega
        subst hv2
        have hvu : v < 2 * v := by omega
        have hA : (2 * v) ^^^ 3 * (2 * v) = 2 * (v ^^^ 3 * v) := by
          rw [show 3 * (2 * v) = 2 * (3 * v) by ring, two_mul_xor_two_mul]
        have hB : (2 * v) ^^^ (3 * (2 * v) + 1) = 2 * (v ^^^ 3 * v) + 1 := by
          rw [show 3 * (2 * v) + 1 = 2 * (3 * v) + 1 by ring, two_mul_xor_two_mul_add_one]
        have hC : (2 * v) ^^^ (3 * (2 * v) + 2) = 2 * (v ^^^ (3 * v + 1)) := by
          rw [show 3 * (2 * v) + 2 = 2 * (3 * v + 1) by ring, two_mul_xor_two_mul]
        obtain ⟨ihA, ihB, ihC, ihPA, ihPC⟩ := ih v hvu
        refine ⟨?_, ?_, ?_, ?_, ?_⟩
        · rw [hA]; exact noAdj_two_mul ihA
        · rw [hB]; exact noAdj_two_mul_add_one ihA ihPA
        · rw [hC]; exact noAdj_two_mul ihB
        · rw [hA]; exact Nat.mul_mod_right 2 _
        · rw [hC]; exact Nat.mul_mod_right 2 _
      · obtain ⟨v, hv⟩ := ho
        subst hv
        have hvu : v < 2 * v + 1 := by omega
        have hA : (2 * v + 1) ^^^ 3 * (2 * v + 1) = 2 * (v ^^^ (3 * v + 1)) := by
          rw [show 3 * (2 * v + 1) = 2 * (3 * v + 1) + 1 by ring,
            two_mul_add_one_xor_two_mul_add_one]
        have hB : (2 * v + 1) ^^^ (3 * (2 * v + 1) + 1) = 2 * (v ^^^ (3 * v + 2)) + 1 := by
          rw [show 3 * (2 * v + 1) + 1 = 2 * (3 * v + 2) by ring, two_mul_add_one_xor_two_mul]
        have hC : (2 * v + 1) ^^^ (3 * (2 * v + 1) + 2) = 2 * (v ^^^ (3 * v + 2)) := by
          rw [show 3 * (2 * v + 1) + 2 = 2 * (3 * v + 2) + 1 by ring,
            two_mul_add_one_xor_two_mul_add_one]
        obtain ⟨ihA, ihB, ihC, ihPA, ihPC⟩ := ih v hvu
        refine ⟨?_, ?_, ?_, ?_, ?_⟩
        · rw [hA]; exact noAdj_two_mul ihB
        · rw [hB]; exact noAdj_two_mul_add_one ihC ihPC
        · rw [hC]; exact noAdj_two_mul ihC
        · rw [hA]; exact Nat.mul_mod_right 2 _
        · rw [hC]; exact Nat.mul_mod_right 2 _

theorem div_two_xor_div_two (a b : Nat) : (a / 2) ^^^ (b / 2) = (a ^^^ b) / 2 := by
  apply Nat.eq_of_testBit_eq
  intro i
  simp [Nat.testBit_xor, Nat.testBit_div_two]

theorem noAdj_div_two {n : Nat} (h : NoAdj n) : NoAdj (n / 2) := by
  intro i
  simp only [Nat.testBit_div_two]
  exact h (i + 1)

theorem noAdj_of_subset {m n : Nat} (hsub : ∀ i, m.testBit i = true → n.testBit i = true)
    (h : NoAdj n) : NoAdj m := by
  intro i hi
  exact h i ⟨hsub i hi.1, hsub (i + 1) hi.2⟩

theorem noAdj_land_shiftRight {v : Nat} (h : NoAdj v) : v &&& (v >>> 1) = 0 := by
  apply Nat.eq_of_testBit_eq
  intro i
  simp only [Nat.testBit_land, Nat.testBit_shiftRight, Nat.zero_testBit]
  rw [Nat.add_comm 1 i]
  have hi := h i
  cases hb : v.testBit i <;> cases hc : v.testBit (i + 1) <;> simp_all

/-- Unfolded form of the NAF recoder. -/
theorem naf_def (s : Nat) :
    naf s = ((uadd s (s >>> 1)) &&& ((s >>> 1) ^^^ uadd s (s >>> 1)),
             (s >>> 1) &&& ((s >>> 1) ^^^ uadd s (s >>> 1))) := rfl

theorem two_pow_257_lt_U : 2 ^ 257 < U := by
  unfold U; exact Nat.pow_lt_pow_right (by omega) (by omega)

theorem shiftRight_one_eq (s : Nat) : s >>> 1 = s / 2 := by
  rw [Nat.shiftRight_eq_div_pow, Nat.pow_one]

theorem naf_uadd_eq {s : Nat} (hs : s < 2 ^ 256) : uadd s (s >>> 1) = s + s / 2 := by
  rw [shiftRight_one_eq]
  apply uadd_eq
  have h := two_pow_257_lt_U
  have h2 : (2:Nat) ^ 257 = 2 ^ 256 * 2 := by rw [Nat.pow_succ]
  omega

/-- The NAF masks are disjoint, for every input. -/
theorem naf_masks_disjoint (s : Nat) : (naf s).1 &&& (naf s).2 = 0 := by
  rw [naf_def]
  apply Nat.eq_of_testBit_eq
  intro i
  simp only [Nat.testBit_land, Nat.testBit_xor, Nat.zero_testBit]
  cases h1 : (uadd s (s >>> 1)).testBit i <;> cases h2 : (s >>> 1).testBit i <;> simp

/-- No two adjacent bits of `np OR nm` are set, for every input below
`2 ^ 256`. -/
theorem naf_noAdj {s : Nat} (hs : s < 2 ^ 256) :
    ((naf s).1 ||| (naf s).2) &&& (((naf s).1 ||| (naf s).2) >>> 1) = 0 := by
  apply noAdj_land_shiftRight
  rw [naf_def]
  have hx3 : uadd s (s >>> 1) = 3 * s / 2 := by
    rw [naf_uadd_eq hs]; omega
  have hc : (s >>> 1) ^^^ uadd s (s >>> 1) = (s ^^^ 3 * s) / 2 := by
    rw [hx3, shiftRight_one_eq, div_two_xor_div_two]
  have hnc : NoAdj ((s >>> 1) ^^^ uadd s (s >>> 1)) := by
    rw [hc]
    exact noAdj_div_two (noAdj_xor_three_mul s).1
  apply noAdj_of_subset _ hnc
  intro i hi
  simp only [Nat.testBit_or, Nat.testBit_land, Bool.or_eq_true, Bool.and_eq_true] at hi
  rcases hi with h | h <;> exact h.2

/-- The signed digit sum of the NAF masks recovers the scalar. -/
theorem naf_sum {s : Nat} (hs : s < 2 ^ 256) :
    (∑ i ∈ Finset.range 257,
      (2:ℤ) ^ i * (((naf s).1.testBit i).toNat - ((naf s).2.testBit i).toNat)) = s := by
  rw [naf_def]
  set xh := s >>> 1 with hxh
  set x3 := uadd s (s >>> 1) with hx3
  have hxh2 : xh = s / 2 := shiftRight_one_eq s
  have hx32 : x3 = s + s / 2 := naf_uadd_eq hs
  have hpoint : ∀ i : Nat,
      (((x3 &&& (xh ^^^ x3)).testBit i).toNat : ℤ) - ((xh &&& (xh ^^^ x3)).testBit i).toNat =
        ((x3.testBit i).toNat : ℤ) - (xh.testBit i).toNat := by
    intro i
    simp only [Nat.testBit_land, Nat.testBit_xor]
    cases h1 : x3.testBit i <;> cases h2 : xh.testBit i <;> simp
  calc (∑ i ∈ Finset.range 257,
          (2:ℤ) ^ i * (((x3 &&& (xh ^^^ x3)).testBit i).toNat -
            ((xh &&& (xh ^^^ x3)).testBit i).toNat))
      = ∑ i ∈ Finset.range 257,
          (2:ℤ) ^ i * (((x3.testBit i).toNat : ℤ) - (xh.testBit i).toNat) := by
        apply Finset.sum_congr rfl
        intro i _
        rw [hpoint i]
    _ = (∑ i ∈ Finset.range 257, (2:ℤ) ^ i * ((x3.testBit i).toNat : ℤ)) -
          ∑ i ∈ Finset.range 257, (2:ℤ) ^ i * ((xh.testBit i).toNat : ℤ) := by
        rw [← Finset.sum_sub_distrib]
        apply Finset.sum_congr rfl
        intro i _
        ring
    _ = ((x3 % 2 ^ 257 : ℕ) : ℤ) - ((xh % 2 ^ 257 : ℕ) : ℤ) := by
        rw [← sum_testBit_eq_mod x3 257, ← sum_testBit_eq_mod xh 257]
        push_cast
        rfl
    _ = (s : ℤ) := by
        have hb : (2:Nat) ^ 257 = 2 ^ 256 * 2 := by rw [Nat.pow_succ]
        have hx3lt : x3 < 2 ^ 257 := by omega
        have hxhlt : xh < 2 ^ 257 := by omega
        rw [Nat.mod_eq_of_lt hx3lt, Nat.mod_eq_of_lt hxhlt]
        have : (x3 : ℤ) = (s : ℤ) + (xh : ℤ) := by
          rw [hx32, hxh2]; push_cast; ring
        omega

/-- C3: for every scalar `s < 2^256` the mutual-NAF recoding
`naf(s) = (np, nm)` satisfies the signed digit sum
`Σ_{i<257} 2^i (np_i - nm_i) = s`, mask disjointness `np AND nm = 0`, and
non-adjacency of the set bits of `np OR nm` (expressed as
`v AND (v >> 1) = 0` for `v = np OR nm`). -/
theorem naf_recoding_spec (s : Nat) (hs : s < 2 ^ 256) :
    (∑ i ∈ Finset.range 257,
      (2:ℤ) ^ i * (((naf s).1.testBit i).toNat - ((naf s).2.testBit i).toNat)) = s ∧
    (naf s).1 &&& (naf s).2 = 0 ∧
    ((naf s).1 ||| (naf s).2) &&& (((naf s).1 ||| (naf s).2) >>> 1) = 0 :=
  ⟨naf_sum hs, naf_masks_disjoint s, naf_noAdj hs⟩

/-- C3 (witness): the NAF contract evaluated at the scalar 11. -/
theorem naf_recoding_spec_witness :
    11 < 2 ^ 256 ∧
    ((∑ i ∈ Finset.range 257,
      (2:ℤ) ^ i * (((naf 11).1.testBit i).toNat - ((naf 11).2.testBit i).toNat)) = 11 ∧
    (naf 11).1 &&& (naf 11).2 = 0 ∧
    ((naf 11).1 ||| (naf 11).2) &&& (((naf 11).1 ||| (naf 11).2) >>> 1) = 0) :=
  ⟨by norm_num, naf_recoding_spec 11 (by norm_num)⟩

/-!  Modular exponentiation (C5). -/

theorem two_pow_256_mul_self : 2 ^ 256 * 2 ^ 256 = U := by
  unfold U
  rw [← Nat.pow_add]

theorem mul_lt_U {a b : Nat} (ha : a < 2 ^ 256) (hb : b < 2 ^ 256) : a * b < U := by
  calc a * b < 2 ^ 256 * 2 ^ 256 := Nat.mul_lt_mul'' ha hb
    _ = U := two_pow_256_mul_self

/-- Correctness of the square-and-multiply loop: with enough fuel and all
operands below `2^256` (so that no 512-bit product wraps), the loop
computes `x ^ e * ret mod f`. -/
theorem modExpGo_correct (f : Nat) (hf1 : 1 < f) (hf : f < 2 ^ 256) :
    ∀ fuel e ret x, 1 ≤ e → e ≤ fuel → x < 2 ^ 256 → ret < 2 ^ 256 →
      modExpGo f fuel ret e x = x ^ e * ret % f := by
  intro fuel
  induction fuel with
  | zero => intro e ret x he hef _ _; omega
  | succ fuel ih =>
    intro e ret x he hef hx hret
    simp only [modExpGo]
    by_cases he1 : e ≤ 1
    · rw [if_pos he1]
      have : e = 1 := by omega
      subst this
      rw [umul_eq _ _ (mul_lt_U hx hret), Nat.pow_one]
    · rw [if_neg he1]
      have hxx : umul x x % f = x * x % f := by rw [umul_eq _ _ (mul_lt_U hx hx)]
      have hxm : x * x % f < 2 ^ 256 := lt_trans (Nat.mod_lt _ (by omega)) hf
      have hrec : ∀ r, r < 2 ^ 256 →
          modExpGo f fuel r (e / 2) (x * x % f) = (x * x) ^ (e / 2) * r % f := by
        intro r hr
        rw [ih (e / 2) r (x * x % f) (by omega) (by omega) hxm hr]
        have hc : (x * x % f) ^ (e / 2) ≡ (x * x) ^ (e / 2) [MOD f] :=
          (Nat.mod_modEq (x * x) f).pow _
        exact hc.mul_right r
      by_cases hev : e % 2 = 0
      · rw [if_pos hev]
        rw [shiftRight_one_eq, hxx, hrec ret hret]
        rw [show x * x = x ^ 2 by ring, ← Nat.pow_mul, show 2 * (e / 2) = e by omega]
      · rw [if_neg hev]
        have hrx : umul ret x % f = ret * x % f := by rw [umul_eq _ _ (mul_lt_U hret hx)]
        have hrxm : ret * x % f < 2 ^ 256 := lt_trans (Nat.mod_lt _ (by omega)) hf
        rw [shiftRight_one_eq, hxx, hrx, hrec _ hrxm]
        have hc : (x * x) ^ (e / 2) * (ret * x % f) ≡ (x * x) ^ (e / 2) * (ret * x) [MOD f] :=
          (Nat.mod_modEq (ret * x) f).mul_left _
        rw [Nat.ModEq] at hc
        rw [hc]
        have : (x * x) ^ (e / 2) * (ret * x) = x ^ (2 * (e / 2) + 1) * ret := by
          rw [show x * x = x ^ 2 by ring, ← Nat.pow_mul, Nat.pow_succ]
          ring
        rw [this, show 2 * (e / 2) + 1 = e by omega]

/-- Correctness of `mod_exp` on nonzero base and exponent. -/
theorem mod_exp_correct {g a f : Nat} (hg0 : g ≠ 0) (ha0 : a ≠ 0) (hf1 : 1 < f)
    (hf : f < 2 ^ 256) (hg : g < 2 ^ 256) : mod_exp g a f = g ^ a % f := by
  unfold mod_exp
  rw [if_neg hg0, if_neg ha0]
  rw [modExpGo_correct f hf1 hf a a 1 g (by omega) (le_refl a) hg (by norm_num)]
  rw [Nat.mul_one]

/-- C5: for `1 < f` and operands below `2^256` (so that intermediate
512-bit products do not wrap), `mod_exp(g, a, f)` is `g ^ a mod f`, with
the source's edge cases: a zero base returns `0` (taking precedence) and
a zero exponent returns `1`; in particular the three concrete values of
spec §8 hold. -/
theorem mod_exp_spec (g a f : Nat) (hf1 : 1 < f) (hf : f < 2 ^ 256) (hg : g < 2 ^ 256) :
    mod_exp 0 a f = 0 ∧
    (g ≠ 0 → mod_exp g 0 f = 1) ∧
    (g ≠ 0 → a ≠ 0 → mod_exp g a f = g ^ a % f) ∧
    mod_exp 2 127 71 = 50 ∧ mod_exp 3 100 77 = 67 ∧ mod_exp 92 27 19083 = 7769 := by
  refine ⟨by simp [mod_exp], ?_, ?_, by decide, by decide, by decide⟩
  · intro hg0
    simp [mod_exp, hg0]
  · intro hg0 ha0
    exact mod_exp_correct hg0 ha0 hf1 hf hg

/-- C5 (witness): the three concrete evaluations, obtained through the
main theorem applied at `g = 2`, `a = 127`, `f = 71`. -/
theorem mod_exp_spec_witness :
    mod_exp 2 127 71 = 2 ^ 127 % 71 ∧ mod_exp 2 127 71 = 50 ∧
    mod_exp 3 100 77 = 67 ∧ mod_exp 92 27 19083 = 7769 := by
  have h := mod_exp_spec 2 127 71 (by norm_num) (by norm_num) (by norm_num)
  exact ⟨h.2.2.1 (by norm_num) (by norm_num), h.2.2.2.1, h.2.2.2.2.1, h.2.2.2.2.2⟩

/-!  Extended-Euclidean modular inverse (C4). -/

theorem int_emod_of_neg {z q : ℤ} (h1 : -q ≤ z) (h2 : z < 0) : z % q = z + q := by
  have hq : 0 < q := by omega
  have h3 := Int.add_mul_emod_self_left z q 1
  rw [mul_one] at h3
  rw [← h3]
  exact Int.emod_eq_of_lt (by omega) (by omega)

theorem abs_sub_mul_of_sign {X INV D : ℤ} (hD : 0 ≤ D) (hsign : X * INV ≤ 0) :
    |INV - D * X| = |INV| + D * |X| := by
  rcases mul_nonpos_iff.mp hsign with ⟨hX, hI⟩ | ⟨hX, hI⟩
  · rw [abs_of_nonpos hI, abs_of_nonneg hX, abs_of_nonpos (by nlinarith : INV - D * X ≤ 0)]
    ring
  · rw [abs_of_nonneg hI, abs_of_nonpos hX, abs_of_nonneg (by nlinarith : 0 ≤ INV - D * X)]
    ring

theorem p_lt_U_of_small {p : Nat} (h : p < 2 ^ 256) : p < U :=
  lt_trans h two_pow_256_lt_U

theorem modinvGo_invariant (p e : Nat) (hp : 1 < p) (hpU : p < 2 ^ 256) :
    ∀ (fuel a m x inv : Nat) (X INV : ℤ),
      m ≤ fuel → 1 ≤ a → a < 2 ^ 256 → (2 ≤ a → 1 ≤ m) → m ≤ p →
      Nat.gcd a m = 1 →
      ((e : ℤ) * INV ≡ (a : ℤ) [ZMOD (p : ℤ)]) →
      ((e : ℤ) * X ≡ (m : ℤ) [ZMOD (p : ℤ)]) →
      X * INV ≤ 0 →
      (|INV| * (m : ℤ) + |X| * (a : ℤ) = (p : ℤ)) →
      ((inv : ℤ) = INV % (p : ℤ)) →
      (2 ≤ a → (x : ℤ) = X % (p : ℤ)) →
      (e : ℤ) * (modinvGo p fuel a m x inv : ℤ) ≡ 1 [ZMOD (p : ℤ)] ∧
        modinvGo p fuel a m x inv < p := by
  intro fuel
  induction fuel with
  | zero =>
    intro a m x inv X INV hmf ha1 haU hG1 hmp hgcd hIi hXi hsign hid hinvrep hxrep
    have hm0 : m = 0 := by omega
    have ha : a = 1 := by
      by_contra hne
      have := hG1 (by omega)
      omega
    subst ha
    have hre : (INV % (p : ℤ)) ≡ INV [ZMOD (p : ℤ)] := Int.emod_emod_of_dvd INV dvd_rfl
    constructor
    · rw [show ((modinvGo p 0 1 m x inv : ℕ) : ℤ) = ((inv : ℕ) : ℤ) from rfl, hinvrep]
      calc (e : ℤ) * (INV % (p:ℤ)) ≡ (e : ℤ) * INV [ZMOD (p:ℤ)] := hre.mul_left _
        _ ≡ ((1:ℕ) : ℤ) [ZMOD (p:ℤ)] := hIi
        _ = 1 := by norm_num
    · show inv < p
      have h1 : ((inv : ℕ) : ℤ) < (p : ℤ) := by
        rw [hinvrep]
        exact Int.emod_lt_of_pos INV (by exact_mod_cast Nat.lt_of_lt_of_le Nat.zero_lt_one (le_of_lt hp))
      exact_mod_cast h1
  | succ fuel ih =>
    intro a m x inv X INV hmf ha1 haU hG1 hmp hgcd hIi hXi hsign hid hinvrep hxrep
    by_cases hale : a ≤ 1
    · have ha : a = 1 := by omega
      subst ha
      simp only [modinvGo, if_pos hale]
      have hre : (INV % (p : ℤ)) ≡ INV [ZMOD (p : ℤ)] := Int.emod_emod_of_dvd INV dvd_rfl
      constructor
      · rw [hinvrep]
        calc (e : ℤ) * (INV % (p:ℤ)) ≡ (e : ℤ) * INV [ZMOD (p:ℤ)] := hre.mul_left _
          _ ≡ ((1:ℕ) : ℤ) [ZMOD (p:ℤ)] := hIi
          _ = 1 := by norm_num
      · have h1 : ((inv : ℕ) : ℤ) < (p : ℤ) := by
          rw [hinvrep]
          exact Int.emod_lt_of_pos INV (by exact_mod_cast Nat.lt_of_lt_of_le Nat.zero_lt_one (le_of_lt hp))
        exact_mod_cast h1
    · -- loop body: a ≥ 2
      have ha2 : 2 ≤ a := by omega
      have hm1 : 1 ≤ m := hG1 ha2
      have hxrep' : (x : ℤ) = X % (p : ℤ) := hxrep ha2
      have hpz : (0 : ℤ) < (p : ℤ) := by exact_mod_cast lt_trans Nat.zero_lt_one hp
      have hxltp : x < p := by
        have h1 : ((x : ℕ) : ℤ) < (p : ℤ) := by rw [hxrep']; exact Int.emod_lt_of_pos X hpz
        exact_mod_cast h1
      have hinvltp : inv < p := by
        have h1 : ((inv : ℕ) : ℤ) < (p : ℤ) := by rw [hinvrep]; exact Int.emod_lt_of_pos INV hpz
        exact_mod_cast h1
      have hxU : x < 2 ^ 256 := lt_trans hxltp hpU
      have hdvU : a / m < 2 ^ 256 := lt_of_le_of_lt (Nat.div_le_self a m) haU
      have humul : umul (a / m) x = a / m * x := umul_eq _ _ (mul_lt_U hdvU hxU)
      have hD0 : (0:ℤ) ≤ ((a / m : ℕ) : ℤ) := Int.natCast_nonneg _
      have habs2 : |INV - ((a / m : ℕ) : ℤ) * X| = |INV| + ((a / m : ℕ) : ℤ) * |X| :=
        abs_sub_mul_of_sign hD0 hsign
      have hdm : (a : ℤ) = ((a / m : ℕ) : ℤ) * (m : ℤ) + ((a % m : ℕ) : ℤ) := by
        have h := Nat.div_add_mod a m
        have hz : ((m : ℕ) : ℤ) * ((a / m : ℕ) : ℤ) + ((a % m : ℕ) : ℤ) = ((a : ℕ) : ℤ) := by
          exact_mod_cast h
        linear_combination -hz
      have habsX0 : (0:ℤ) ≤ |X| := abs_nonneg X
      have habsI0 : (0:ℤ) ≤ |INV| := abs_nonneg INV
      have hm1z : (1:ℤ) ≤ (m:ℤ) := by exact_mod_cast hm1
      have ha2z : (2:ℤ) ≤ (a:ℤ) := by exact_mod_cast ha2
      have hrem0 : (0:ℤ) ≤ ((a % m : ℕ) : ℤ) := Int.natCast_nonneg _
      have hid' : |X| * ((a % m : ℕ) : ℤ) + |INV - ((a / m : ℕ) : ℤ) * X| * (m : ℤ) = (p : ℤ) := by
        rw [habs2]
        linear_combination hid - |X| * hdm
      have habs20 : (0:ℤ) ≤ |INV - ((a / m : ℕ) : ℤ) * X| := abs_nonneg _
      have hI2m : |INV - ((a / m : ℕ) : ℤ) * X| * (m : ℤ) ≤ (p : ℤ) := by
        have h1 := mul_nonneg habsX0 hrem0
        linarith only [h1, hid']
      have hI2 : |INV - ((a / m : ℕ) : ℤ) * X| ≤ (p : ℤ) := by
        have h1 := mul_le_mul_of_nonneg_left hm1z habs20
        rw [mul_one] at h1
        linarith only [h1, hI2m]
      have habsXa : |X| * (a:ℤ) ≤ (p:ℤ) := by
        have h1 := mul_nonneg habsI0 (le_trans zero_le_one hm1z)
        linarith only [h1, hid]
      have habsIm : |INV| * (m:ℤ) ≤ (p:ℤ) := by
        have h1 := mul_nonneg habsX0 (le_trans zero_le_one (by linarith only [ha2z] : (1:ℤ) ≤ (a:ℤ)))
        linarith only [h1, hid]
      have habsXp : |X| < (p:ℤ) := by
        have h1 := mul_le_mul_of_nonneg_left ha2z habsX0
        linarith only [h1, habsXa, hpz]
      have hcong2 : (e : ℤ) * (INV - ((a / m : ℕ) : ℤ) * X) ≡ ((a % m : ℕ) : ℤ) [ZMOD (p : ℤ)] := by
        have h1 : (e:ℤ)*INV - ((a / m : ℕ) : ℤ)*((e:ℤ)*X)
            ≡ (a:ℤ) - ((a / m : ℕ) : ℤ)*((m:ℕ):ℤ) [ZMOD (p:ℤ)] :=
          hIi.sub (hXi.mul_left _)
        calc (e : ℤ) * (INV - ((a / m : ℕ) : ℤ) * X)
            = (e:ℤ)*INV - ((a / m : ℕ) : ℤ)*((e:ℤ)*X) := by ring
          _ ≡ (a:ℤ) - ((a / m : ℕ) : ℤ)*((m:ℕ):ℤ) [ZMOD (p:ℤ)] := h1
          _ = ((a % m : ℕ) : ℤ) := by linear_combination hdm
      have hremm : a % m < m := Nat.mod_lt a (by omega)
      have hremfuel : a % m ≤ fuel := by omega
      have hgcd' : Nat.gcd m (a % m) = 1 := by
        rw [Nat.gcd_comm m (a % m), ← Nat.gcd_rec m a, Nat.gcd_comm m a]
        exact hgcd
      have hG1' : 2 ≤ m → 1 ≤ a % m := by
        intro hm2
        by_contra hlt
        have hz : a % m = 0 := by omega
        rw [hz, Nat.gcd_zero_right] at hgcd'
        omega
      have hsign' : (INV - ((a / m : ℕ) : ℤ) * X) * X ≤ 0 := by
        rcases mul_nonpos_iff.mp hsign with ⟨hX0, hI0⟩ | ⟨hX0, hI0⟩
        · have h1 : (0:ℤ) ≤ ((a / m : ℕ) : ℤ) * X := mul_nonneg hD0 hX0
          exact mul_nonpos_iff.mpr (Or.inr ⟨by linarith, hX0⟩)
        · have h1 : ((a / m : ℕ) : ℤ) * X ≤ 0 := mul_nonpos_iff.mpr (Or.inl ⟨hD0, hX0⟩)
          exact mul_nonpos_iff.mpr (Or.inl ⟨by linarith, hX0⟩)
      have hxq : ((x:ℕ):ℤ) ≡ X [ZMOD (p:ℤ)] := by
        rw [hxrep']
        exact Int.emod_emod_of_dvd X dvd_rfl
      have hinvq : ((inv:ℕ):ℤ) ≡ INV [ZMOD (p:ℤ)] := by
        rw [hinvrep]
        exact Int.emod_emod_of_dvd INV dvd_rfl
      have hxcast : ((a / m * x : ℕ) : ℤ) = ((a / m : ℕ) : ℤ) * ((x:ℕ):ℤ) := by push_cast; ring
      have hdvxq : ((a / m * x : ℕ) : ℤ) ≡ ((a / m : ℕ) : ℤ) * X [ZMOD (p:ℤ)] := by
        rw [hxcast]
        exact hxq.mul_left _
      -- unfold one loop iteration
      simp only [modinvGo, if_neg hale]
      rw [humul]
      by_cases hguard : a / m * x > inv
      · rw [if_pos hguard]
        have hmodlt : a / m * x % p < p := Nat.mod_lt _ (by omega)
        have happly : (2 ≤ m →
            ((usub p (usub (a / m * x % p) inv) : ℕ) : ℤ)
              = (INV - ((a / m : ℕ) : ℤ) * X) % (p:ℤ)) →
            (e : ℤ) * ((modinvGo p fuel m (a % m)
                (usub p (usub (a / m * x % p) inv)) x : ℕ) : ℤ) ≡ 1 [ZMOD (p:ℤ)] ∧
              modinvGo p fuel m (a % m) (usub p (usub (a / m * x % p) inv)) x < p := by
          intro hcanon
          exact ih m (a % m) (usub p (usub (a / m * x % p) inv)) x
            (INV - ((a / m : ℕ) : ℤ) * X) X
            hremfuel hm1 (lt_of_le_of_lt hmp hpU) hG1'
            (le_trans (le_of_lt hremm) hmp) hgcd'
            hXi hcong2 hsign' hid' hxrep' hcanon
        apply happly
        rcases mul_nonpos_iff.mp hsign with ⟨hX0, hI0⟩ | ⟨hX0, hI0⟩
        · -- 0 ≤ X and INV ≤ 0
          rcases eq_or_lt_of_le hX0 with hXeq | hXpos
          · exfalso
            have hx0 : x = 0 := by
              have h1 : ((x:ℕ):ℤ) = 0 := by rw [hxrep', ← hXeq]; simp
              exact_mod_cast h1
            rw [hx0, Nat.mul_zero] at hguard
            omega
          · have hxX : ((x:ℕ):ℤ) = X := by
              rw [hxrep']
              exact Int.emod_eq_of_lt (le_of_lt hXpos) (by rwa [abs_of_pos hXpos] at habsXp)
            rcases eq_or_lt_of_le hI0 with hIeq | hIneg
            · -- INV = 0, so inv = 0 and the stored value is p - (dv*x % p)
              have hinv0 : inv = 0 := by
                have h1 : ((inv:ℕ):ℤ) = 0 := by rw [hinvrep, hIeq]; simp
                exact_mod_cast h1
              have hdvx0 : 0 < a / m * x := lt_of_le_of_lt (Nat.zero_le inv) hguard
              have hdvxX : ((a / m * x : ℕ) : ℤ) = ((a / m : ℕ) : ℤ) * X := by
                rw [hxcast, hxX]
              have hDX0 : (0:ℤ) < ((a / m : ℕ) : ℤ) * X := by
                rw [← hdvxX]
                exact_mod_cast hdvx0
              intro hm2
              have hm2z : (2:ℤ) ≤ (m:ℤ) := by exact_mod_cast hm2
              have hI2lt : |INV - ((a / m : ℕ) : ℤ) * X| < (p:ℤ) := by
                have h1 := mul_le_mul_of_nonneg_left hm2z habs20
                linarith only [h1, hI2m, hpz]
              have hIN2neg : INV - ((a / m : ℕ) : ℤ) * X < 0 := by
                rw [hIeq]
                linarith only [hDX0]
              have habsval : |INV - ((a / m : ℕ) : ℤ) * X| = ((a / m : ℕ) : ℤ) * X := by
                rw [abs_of_neg hIN2neg, hIeq]
                ring
              have hdvxlt : a / m * x < p := by
                have h1 : ((a / m * x : ℕ) : ℤ) < (p:ℤ) := by
                  rw [hdvxX, ← habsval]
                  exact hI2lt
                exact_mod_cast h1
              have hmodeq : a / m * x % p = a / m * x := Nat.mod_eq_of_lt hdvxlt
              have hin : usub (a / m * x % p) inv = a / m * x := by
                rw [hinv0, usub_eq _ _ (Nat.zero_le _) (p_lt_U_of_small (lt_trans hmodlt hpU)),
                  hmodeq, Nat.sub_zero]
              have hout : usub p (a / m * x) = p - a / m * x :=
                usub_eq _ _ (le_of_lt hdvxlt) (p_lt_U_of_small hpU)
              rw [hin, hout]
              rw [int_emod_of_neg (le_of_lt (abs_lt.mp hI2lt).1) hIN2neg]
              rw [Nat.cast_sub (le_of_lt hdvxlt), hdvxX, hIeq]
              ring
            · -- INV < 0: the guard cannot fire
              exfalso
              have habsIlt : |INV| ≤ (p:ℤ) := by
                have h1 := mul_le_mul_of_nonneg_left hm1z habsI0
                rw [mul_one] at h1
                linarith only [h1, habsIm]
              have hinvI : ((inv:ℕ):ℤ) = INV + p := by
                rw [hinvrep]
                exact int_emod_of_neg (by rw [abs_of_neg hIneg] at habsIlt
                                          linarith only [habsIlt]) hIneg
              have hDXpos : (0:ℤ) ≤ ((a / m : ℕ) : ℤ) * X := mul_nonneg hD0 (le_of_lt hXpos)
              have habsval : |INV - ((a / m : ℕ) : ℤ) * X|
                  = ((a / m : ℕ) : ℤ) * X - INV := by
                rw [abs_of_nonpos (by linarith only [hDXpos, hIneg])]
                ring
              have hle2 : ((a / m : ℕ) : ℤ) * X ≤ INV + p := by
                rw [habsval] at hI2
                linarith only [hI2]
              have hdvxX : ((a / m * x : ℕ) : ℤ) = ((a / m : ℕ) : ℤ) * X := by
                rw [hxcast, hxX]
              have hcontra : a / m * x ≤ inv := by
                have h1 : ((a / m * x : ℕ) : ℤ) ≤ ((inv:ℕ):ℤ) := by
                  rw [hdvxX, hinvI]
                  exact hle2
                exact_mod_cast h1
              omega
        · -- X ≤ 0 and 0 ≤ INV
          rcases eq_or_lt_of_le hX0 with hXeq | hXneg
          · exfalso
            have hx0 : x = 0 := by
              have h1 : ((x:ℕ):ℤ) = 0 := by rw [hxrep', hXeq]; simp
              exact_mod_cast h1
            rw [hx0, Nat.mul_zero] at hguard
            omega
          · -- X < 0, INV in [0, p)
            have hINVlt : INV < (p:ℤ) := by
              by_contra hge
              push_neg at hge
              have h1a : INV * 1 ≤ INV * (m:ℤ) := mul_le_mul_of_nonneg_left hm1z hI0
              rw [mul_one] at h1a
              have habsI : |INV| = INV := abs_of_nonneg hI0
              rw [habsI] at hid
              have h2 : |X| * (a:ℤ) ≤ 0 := by linarith only [hid, h1a, hge]
              have h1b := mul_le_mul_of_nonneg_left ha2z habsX0
              have h3 : |X| = 0 := by
                have h4 : |X| ≤ 0 := by linarith only [h1b, h2, habsX0]
                exact le_antisymm h4 habsX0
              rw [abs_eq_zero] at h3
              rw [h3] at hXneg
              exact lt_irrefl 0 hXneg
            have hinvI : ((inv:ℕ):ℤ) = INV := by
              rw [hinvrep]
              exact Int.emod_eq_of_lt hI0 hINVlt
            have hD1 : 1 ≤ a / m := by
              by_contra hD0'
              have hdz : a / m = 0 := by omega
              rw [hdz, Nat.zero_mul] at hguard
              omega
            have hD1z : (1:ℤ) ≤ ((a / m : ℕ) : ℤ) := by exact_mod_cast hD1
            have hDXneg : ((a / m : ℕ) : ℤ) * X < 0 := by
              have h1 : ((a / m : ℕ) : ℤ) * X ≤ 1 * X :=
                mul_le_mul_of_nonpos_right hD1z (le_of_lt hXneg)
              rw [one_mul] at h1
              linarith only [h1, hXneg]
            have hDXge : -(p:ℤ) ≤ ((a / m : ℕ) : ℤ) * X := by
              have h1 : ((a / m : ℕ) : ℤ) * |X| ≤ |INV - ((a / m : ℕ) : ℤ) * X| := by
                rw [habs2]
                linarith only [habsI0]
              rw [abs_of_neg hXneg] at h1
              have h2 := hI2
              linarith only [h1, h2]
            have hxX : ((x:ℕ):ℤ) = X + p := by
              rw [hxrep']
              exact int_emod_of_neg (by rw [abs_of_neg hXneg] at habsXp
                                        linarith only [habsXp]) hXneg
            have hdvxcast : ((a / m * x : ℕ) : ℤ)
                = ((a / m : ℕ) : ℤ) * X + (p:ℤ) * ((a / m : ℕ) : ℤ) := by
              rw [hxcast, hxX]
              ring
            have hmodcast : ((a / m * x % p : ℕ) : ℤ) = (((a / m : ℕ) : ℤ) * X) % (p:ℤ) := by
              have h1 : ((a / m * x % p : ℕ) : ℤ) = ((a / m * x : ℕ) : ℤ) % ((p:ℕ):ℤ) := by
                push_cast
                ring
              rw [h1, hdvxcast]
              exact Int.add_mul_emod_self_left (((a / m : ℕ) : ℤ) * X) (p:ℤ) ((a / m : ℕ) : ℤ)
            have hIN2nonneg : (0:ℤ) ≤ INV - ((a / m : ℕ) : ℤ) * X := by
              linarith only [hI0, hDXneg]
            have habsval : |INV - ((a / m : ℕ) : ℤ) * X| = INV - ((a / m : ℕ) : ℤ) * X :=
              abs_of_nonneg hIN2nonneg
            rcases eq_or_lt_of_le hDXge with hDXp | hDXgt
            · -- D*X = -p: then m = 1, the canonical claim is vacuous
              intro hm2
              exfalso
              have hm2z : (2:ℤ) ≤ (m:ℤ) := by exact_mod_cast hm2
              have hIN2p : INV - ((a / m : ℕ) : ℤ) * X = INV + (p:ℤ) := by
                rw [← hDXp]
                ring
              have h1 : INV + (p:ℤ) ≤ (p:ℤ) := by
                rw [habsval, hIN2p] at hI2
                exact hI2
              have h2 : INV = 0 := le_antisymm (by linarith only [h1, hpz]) hI0
              have h4 : |INV - ((a / m : ℕ) : ℤ) * X| * (m:ℤ) ≤ (p:ℤ) := hI2m
              rw [habsval, hIN2p, h2, zero_add] at h4
              have h3 : (p:ℤ) * 2 ≤ (p:ℤ) * (m:ℤ) :=
                mul_le_mul_of_nonneg_left hm2z (le_of_lt hpz)
              linarith only [h3, h4, hpz]
            · -- -p < D*X < 0: the stored value is exactly INV2
              have hmodval : (((a / m : ℕ) : ℤ) * X) % (p:ℤ) = ((a / m : ℕ) : ℤ) * X + p :=
                int_emod_of_neg (le_of_lt hDXgt) hDXneg
              have hunder : inv ≤ a / m * x % p := by
                have h0 : INV - ((a / m : ℕ) : ℤ) * X ≤ (p:ℤ) := by
                  rw [habsval] at hI2
                  exact hI2
                have h1 : ((inv:ℕ):ℤ) ≤ ((a / m * x % p : ℕ) : ℤ) := by
                  rw [hinvI, hmodcast, hmodval]
                  linarith only [h0]
                exact_mod_cast h1
              have hin : usub (a / m * x % p) inv = a / m * x % p - inv :=
                usub_eq _ _ hunder (p_lt_U_of_small (lt_trans hmodlt hpU))
              have hout : usub p (a / m * x % p - inv) = p - (a / m * x % p - inv) :=
                usub_eq _ _ (by omega) (p_lt_U_of_small hpU)
              intro hm2
              have hm2z : (2:ℤ) ≤ (m:ℤ) := by exact_mod_cast hm2
              have hI2lt : INV - ((a / m : ℕ) : ℤ) * X < (p:ℤ) := by
                have h1 := mul_le_mul_of_nonneg_left hm2z habs20
                rw [habsval] at h1 hI2m
                linarith only [h1, hI2m, hpz, hIN2nonneg]
              rw [hin, hout]
              rw [Int.emod_eq_of_lt hIN2nonneg hI2lt]
              rw [Nat.cast_sub (by omega : a / m * x % p - inv ≤ p), Nat.cast_sub hunder]
              rw [hmodcast, hmodval, hinvI]
              ring
      · rw [if_neg hguard]
        have hsubex : usub inv (a / m * x) = inv - a / m * x :=
          usub_eq _ _ (by omega) (p_lt_U_of_small (lt_trans hinvltp hpU))
        have hcongB : ((inv:ℕ):ℤ) - ((a / m * x : ℕ) : ℤ)
            ≡ INV - ((a / m : ℕ) : ℤ) * X [ZMOD (p:ℤ)] :=
          hinvq.sub hdvxq
        have hcanonB : ((usub inv (a / m * x) % p : ℕ) : ℤ)
            = (INV - ((a / m : ℕ) : ℤ) * X) % (p:ℤ) := by
          rw [hsubex]
          push_cast [Nat.cast_sub (by omega : a / m * x ≤ inv)]
          exact hcongB
        exact ih m (a % m) (usub inv (a / m * x) % p) x
          (INV - ((a / m : ℕ) : ℤ) * X) X
          hremfuel hm1 (lt_of_le_of_lt hmp hpU) hG1'
          (le_trans (le_of_lt hremm) hmp) hgcd'
          hXi hcong2 hsign' hid' hxrep' (fun _ => hcanonB)

/-- Correctness of `modinv` under the claim's hypotheses. -/
theorem modinv_correct {e p : Nat} (hgcd : Nat.gcd e p = 1) (hp : 1 < p)
    (he : e < 2 ^ 256) (hpU : p < 2 ^ 256) :
    e * modinv e p % p = 1 ∧ modinv e p < p := by
  have he1 : 1 ≤ e := by
    by_contra h0
    have : e = 0 := by omega
    rw [this, Nat.gcd_zero_left] at hgcd
    omega
  unfold modinv
  rw [if_neg (by omega : ¬ p = 1)]
  have hmain := modinvGo_invariant p e hp hpU p e p 0 1 0 1
    (le_refl p) he1 he (fun _ => by omega) (le_refl p) hgcd
    (by rw [mul_one])
    (by rw [mul_zero]
        show (0:ℤ) % (p:ℤ) = (p:ℤ) % (p:ℤ)
        simp [Int.emod_self])
    (by simp)
    (by simp)
    (by rw [Int.emod_eq_of_lt (by omega) (by exact_mod_cast hp)]
        norm_num)
    (fun _ => by simp)
  obtain ⟨hcong, hlt⟩ := hmain
  constructor
  · have hc2 : ((e:ℕ):ℤ) * ((modinvGo p p e p 0 1 : ℕ) : ℤ) % (p:ℤ) = 1 % (p:ℤ) := hcong
    have h2 : ((e * modinvGo p p e p 0 1 % p : ℕ) : ℤ) = ((1 : ℕ) : ℤ) := by
      push_cast
      rw [hc2, Int.emod_eq_of_lt (by omega) (by exact_mod_cast hp)]
    exact_mod_cast h2
  · exact hlt

/-- C4: for coprime `e`, `p` with `1 < p` (both below `2^256` so that the
512-bit intermediate products do not wrap), `modinv(e, p)` is the unique
multiplicative inverse of `e` modulo `p`: `(e * modinv e p) % p = 1` and
the result is reduced; and for `p = 1` the function returns `1`. -/
theorem modinv_spec (e p : Nat) (hgcd : Nat.gcd e p = 1) (hp : 1 < p)
    (he : e < 2 ^ 256) (hpU : p < 2 ^ 256) :
    e * modinv e p % p = 1 ∧ modinv e p < p ∧ modinv e 1 = 1 :=
  ⟨(modinv_correct hgcd hp he hpU).1, (modinv_correct hgcd hp he hpU).2, rfl⟩

/-- C4 (witness): the inverse of 3 modulo 7. -/
theorem modinv_spec_witness :
    Nat.gcd 3 7 = 1 ∧ (3 * modinv 3 7 % 7 = 1 ∧ modinv 3 7 < 7 ∧ modinv 3 1 = 1) :=
  ⟨by decide, modinv_spec 3 7 (by decide) (by decide) (by decide) (by decide)⟩

/-- With no 512-bit wrap in any intermediate product, every round of the
quadratic-residue protocol passes the verifier's check, for any sequence
of challenge bits and u64 commitment randoms. -/
theorem convinceRounds_complete (n x : Nat) (hn0 : 0 < n) (hn : n < 2 ^ 256)
    (hx : x < 2 ^ 256) :
    ∀ rounds : List (Nat × Bool), (∀ rb ∈ rounds, rb.1 < 2 ^ 64) →
      Izk.convinceRounds n (umul x x % n) x rounds = true := by
  intro rounds
  induction rounds with
  | nil => intro _; rfl
  | cons rb rest ih =>
    intro hr
    obtain ⟨r, b⟩ := rb
    have hrb : r < 2 ^ 64 := hr (r, b) (List.mem_cons_self _ _)
    have hr64 : (2:Nat) ^ 64 < 2 ^ 256 := Nat.pow_lt_pow_right (by omega) (by omega)
    have hrlt : r < 2 ^ 256 := lt_trans hrb hr64
    have hrr : umul r r = r * r := umul_eq _ _ (mul_lt_U hrlt hrlt)
    have hxx : umul x x = x * x := umul_eq _ _ (mul_lt_U hx hx)
    have hrest : ∀ rb2 ∈ rest, rb2.1 < 2 ^ 64 :=
      fun rb2 hm => hr rb2 (List.mem_cons_of_mem _ hm)
    have hcheck : Izk.verify (if b then umul r x % n else r % n) n (umul r r % n)
        (umul x x % n) (if b then 1 else 0) = true := by
      cases b
      · have hz : umul (r % n) (r % n) = r % n * (r % n) :=
          umul_eq _ _ (mul_lt_U (lt_of_le_of_lt (Nat.mod_le r n) hrlt)
            (lt_of_le_of_lt (Nat.mod_le r n) hrlt))
        simp only [Bool.false_eq_true, if_false, Izk.verify, hz, hrr]
        rw [if_pos trivial, beq_iff_eq]
        exact (Nat.mul_mod r r n).symm
      · have hrx : umul r x = r * x := umul_eq _ _ (mul_lt_U hrlt hx)
        have hzlt : r * x % n < 2 ^ 256 := lt_trans (Nat.mod_lt _ hn0) hn
        have hz2 : umul (r * x % n) (r * x % n) = r * x % n * (r * x % n) :=
          umul_eq _ _ (mul_lt_U hzlt hzlt)
        have hylt : x * x % n < 2 ^ 256 := lt_trans (Nat.mod_lt _ hn0) hn
        have hslt : r * r % n < 2 ^ 256 := lt_trans (Nat.mod_lt _ hn0) hn
        have hys : umul (x * x % n) (r * r % n) = x * x % n * (r * r % n) :=
          umul_eq _ _ (mul_lt_U hylt hslt)
        simp only [if_true, Izk.verify, hrx, hrr, hxx, hz2, hys]
        rw [if_neg (by decide : ¬(1:Nat) = 0), beq_iff_eq,
          ← Nat.mul_mod, ← Nat.mul_mod]
        have hring : r * x * (r * x) = x * x * (r * r) := by ring
        rw [hring]
    simp only [Izk.convinceRounds]
    rw [hcheck, if_pos rfl]
    exact ih hrest

/-- C8 counterexample: with the secret x = 2^256, the 512-bit wrap makes
y = (x*x) % U % N collapse to 0, and the very first round with challenge
bit 1 and commitment random r = 1 rejects, so convince returns false. -/
theorem izk_completeness_fails_with_wrap :
    Izk.convinceWith 3 5 (2 ^ 256) (List.replicate 100 (1, true)) = false := by
  decide

/-- C8 amended: completeness of the interactive quadratic-residue proof
holds whenever no intermediate product wraps modulo 2^512: for every p, q
with 0 < p*q < 2^256, every secret x < 2^256, and every sequence of
challenge bits with u64 commitment randoms, convince(p, q, x) returns
true. -/
theorem izk_completeness_spec (p q x : Nat) (rounds : List (Nat × Bool))
    (hn0 : 0 < p * q) (hpq : p * q < 2 ^ 256) (hx : x < 2 ^ 256)
    (hr : ∀ rb ∈ rounds, rb.1 < 2 ^ 64) :
    Izk.convinceWith p q x rounds = true := by
  have hN : umul p q = p * q := umul_eq _ _ (lt_trans hpq two_pow_256_lt_U)
  show Izk.convinceRounds (umul p q) (umul x x % umul p q) x rounds = true
  rw [hN]
  exact convinceRounds_complete (p * q) x hn0 hpq hx rounds hr

/-- C8 witness: the amended completeness theorem at p = 3, q = 5, x = 2
with three concrete rounds. -/
theorem izk_completeness_spec_witness :
    Izk.convinceWith 3 5 2 [(4, false), (7, true), (1, true)] = true :=
  izk_completeness_spec 3 5 2 [(4, false), (7, true), (1, true)]
    (by decide) (by decide) (by decide) (by decide)

theorem p247_pos : 1 < p247 := by decide

theorem p247_lt : p247 < 2 ^ 256 := by decide

theorem p247_sub_one : p247 - 1 = 2 ^ 247 * (3 * 5 ^ 2) := by decide

/-- Bridge from the program's verified mod_exp to powers of 37 modulo
p247. -/
theorem pow37_mod (k : Nat) (hk : k ≠ 0) :
    (37 : Nat) ^ k % p247 = mod_exp 37 k p247 :=
  (mod_exp_correct (by decide) hk p247_pos p247_lt (by decide)).symm

/-- Power-of-37 equations in ZMod p247 reduce to concrete mod_exp
evaluations. -/
theorem zmod37_pow (k : Nat) (hk : k ≠ 0) :
    (37 : ZMod p247) ^ k = 1 ↔ mod_exp 37 k p247 = 1 := by
  have h1 : ((37 : ℕ) : ZMod p247) = (37 : ZMod p247) := by norm_cast
  have h2 : ((1 : ℕ) : ZMod p247) = (1 : ZMod p247) := Nat.cast_one
  rw [← h1, ← h2, ← Nat.cast_pow, ZMod.natCast_eq_natCast_iff',
    Nat.mod_eq_of_lt (by decide : (1 : Nat) < p247), pow37_mod k hk]

/-- Lucas primality certificate for p247 with witness a = 37. -/
theorem p247_prime : Nat.Prime p247 := by
  have ha : (37 : ZMod p247) ^ (p247 - 1) = 1 :=
    (zmod37_pow (p247 - 1) (by decide)).mpr (by decide)
  refine lucas_primality p247 37 ha ?_
  intro q hq hdvd
  have hq2 : q = 2 ∨ q = 3 ∨ q = 5 := by
    rw [p247_sub_one] at hdvd
    rcases (Nat.Prime.dvd_mul hq).mp hdvd with h | h
    · exact Or.inl ((Nat.prime_dvd_prime_iff_eq hq Nat.prime_two).mp
        (hq.dvd_of_dvd_pow h))
    · rcases (Nat.Prime.dvd_mul hq).mp h with h3 | h5
      · exact Or.inr (Or.inl ((Nat.prime_dvd_prime_iff_eq hq Nat.prime_three).mp h3))
      · exact Or.inr (Or.inr ((Nat.prime_dvd_prime_iff_eq hq Nat.prime_five).mp
          (hq.dvd_of_dvd_pow h5)))
  rcases hq2 with rfl | rfl | rfl
  · intro h1
    exact absurd ((zmod37_pow _ (by decide)).mp h1) (by decide)
  · intro h1
    exact absurd ((zmod37_pow _ (by decide)).mp h1) (by decide)
  · intro h1
    exact absurd ((zmod37_pow _ (by decide)).mp h1) (by decide)

/-- Fermat cycling: for a prime r and any m, t, raising m to
1 + (r-1)*t is congruent to m modulo r. -/
theorem prime_pow_cycle {r : Nat} (hr : Nat.Prime r) (m t : Nat) :
    m ^ (1 + (r - 1) * t) ≡ m [MOD r] := by
  by_cases hdvd : r ∣ m
  · have h1 : r ∣ m ^ (1 + (r - 1) * t) :=
      hdvd.trans (dvd_pow_self m (by omega))
    calc m ^ (1 + (r - 1) * t) ≡ 0 [MOD r] := Nat.modEq_zero_iff_dvd.mpr h1
      _ ≡ m [MOD r] := (Nat.modEq_zero_iff_dvd.mpr hdvd).symm
  · haveI := Fact.mk hr
    have hm0 : (m : ZMod r) ≠ 0 := fun h0 =>
      hdvd ((ZMod.natCast_zmod_eq_zero_iff_dvd m r).mp h0)
    have hferm : (m : ZMod r) ^ (r - 1) = 1 := ZMod.pow_card_sub_one_eq_one hm0
    have hz : ((m ^ (1 + (r - 1) * t) : ℕ) : ZMod r) = ((m : ℕ) : ZMod r) := by
      push_cast
      rw [pow_add, pow_one, pow_mul, hferm, one_pow, mul_one]
    exact (ZMod.natCast_eq_natCast_iff _ _ _).mp hz

/-- C6 counterexample: p247 and 11 are distinct primes passing flt,
e = 7 is coprime to (p-1)*(q-1), and m = 2 < p*q, yet the roundtrip does
not return 2: the modulus 11*p247 exceeds 2^256, so the squarings inside
the decryption mod_exp wrap modulo 2^512. -/
theorem rsa_roundtrip_fails_with_wrap :
    Nat.Prime p247 ∧ Nat.Prime 11 ∧ p247 ≠ 11 ∧ flt p247 = true ∧ flt 11 = true ∧
    Nat.gcd 7 ((p247 - 1) * (11 - 1)) = 1 ∧ 2 < p247 * 11 ∧
    rsa_decrypt (rsa_encrypt 2 (umul p247 11) 7) 11 p247 7 ≠ 2 :=
  ⟨p247_prime, by norm_num, by decide, by decide, by decide, by decide,
    by decide, by decide⟩

theorem umul_zero (a : Nat) : umul a 0 = 0 := by
  unfold umul
  rw [Nat.mul_zero, Nat.zero_mod]

theorem zero_umul (a : Nat) : umul 0 a = 0 := by
  unfold umul
  rw [Nat.zero_mul, Nat.zero_mod]

theorem usub_zero {a : Nat} (ha : a < U) : usub a 0 = a := by
  unfold usub
  rw [Nat.sub_zero, Nat.add_mod_right]
  exact Nat.mod_eq_of_lt ha

theorem umul_one {a : Nat} (ha : a < U) : umul a 1 = a := by
  unfold umul
  rw [Nat.mul_one]
  exact Nat.mod_eq_of_lt ha

/-- The extended-Euclid loop returns inv as soon as a drops to 1 or 0,
with any fuel. -/
theorem modinvGo_le_one (p f a m x inv : Nat) (h : a ≤ 1) :
    modinvGo p f a m x inv = inv := by
  cases f
  · rfl
  · simp only [modinvGo, if_pos h]

/-- One unfolding of the extended-Euclid loop body when a > 1. -/
theorem modinvGo_step (p f a m x inv : Nat) (ha : ¬ a ≤ 1) :
    modinvGo p (f + 1) a m x inv
      = modinvGo p f m (a % m)
          (if umul (a / m) x > inv then usub p (usub (umul (a / m) x % p) inv)
           else usub inv (umul (a / m) x) % p) x := by
  simp only [modinvGo, if_neg ha]

/-- The source's modinv reduces its first argument modulo p on the first
loop iteration, with no wrapping product (x is still 0 there), so any
U512 exponent behaves like its residue: modinv(e, p) = modinv(e mod p, p)
whenever 1 < p < 2^512. -/
theorem modinv_mod (e p : Nat) (hp : 1 < p) (hpU : p < U) :
    modinv e p = modinv (e % p) p := by
  by_cases he1 : e ≤ 1
  · rw [Nat.mod_eq_of_lt (by omega : e < p)]
  · have hp1 : ¬ p = 1 := by omega
    simp only [modinv, if_neg hp1]
    obtain ⟨k, rfl⟩ : ∃ k, p = k + 1 := ⟨p - 1, by omega⟩
    have hk1 : 1 ≤ k := by omega
    rw [modinvGo_step _ _ _ _ _ _ he1, umul_zero, if_neg (by omega : ¬ (1:Nat) < 0),
      usub_zero (by omega : (1:Nat) < U), Nat.mod_eq_of_lt (by omega : 1 < k + 1)]
    by_cases hr : e % (k + 1) ≤ 1
    · rw [modinvGo_le_one _ _ _ _ _ _ hr]
      obtain ⟨j, rfl⟩ : ∃ j, k = j + 1 := ⟨k - 1, by omega⟩
      rw [modinvGo_step _ _ _ _ _ _ (by omega : ¬ j + 1 + 1 ≤ 1)]
      rcases Nat.le_one_iff_eq_zero_or_eq_one.mp hr with h0 | h1
      · rw [h0, Nat.div_zero, Nat.mod_zero, zero_umul,
          if_neg (by omega : ¬ (0:Nat) < 0),
          show usub 0 0 = 0 from by unfold usub; simp [U],
          Nat.zero_mod]
        exact modinvGo_le_one _ _ _ _ _ _ (by omega)
      · rw [h1, Nat.div_one, Nat.mod_one, umul_one hpU,
          if_pos (by omega : 0 < j + 1 + 1), Nat.mod_self,
          show usub 0 0 = 0 from by unfold usub; simp [U],
          usub_zero hpU]
        exact modinvGo_le_one _ _ _ _ _ _ (by omega)
    · rw [modinvGo_step _ _ _ _ _ _ hr,
        Nat.div_eq_of_lt (Nat.mod_lt e (by omega)), zero_umul,
        if_neg (by omega : ¬ (1:Nat) < 0), usub_zero (by omega : (1:Nat) < U),
        Nat.mod_eq_of_lt (by omega : 1 < k + 1),
        Nat.mod_mod_of_dvd e (dvd_refl (k + 1))]

/-- C6 amended: the RSA roundtrip identity holds for every U512 exponent
provided the modulus does not exceed 2^256, so that no 512-bit
intermediate wraps. -/
theorem rsa_roundtrip_spec (p q e m : Nat) (hp : Nat.Prime p) (hq : Nat.Prime q)
    (hne : p ≠ q) (hfp : flt p = true) (hfq : flt q = true)
    (hgcd : Nat.gcd e ((p - 1) * (q - 1)) = 1) (hm : m < p * q)
    (hpq : p * q < 2 ^ 256) (he : e < U) :
    rsa_decrypt (rsa_encrypt m (umul p q) e) q p e = m := by
  have hp2 : 2 ≤ p := hp.two_le
  have hq2 : 2 ≤ q := hq.two_le
  have hN1 : 1 < p * q := by
    have h4 : 4 ≤ p * q := Nat.mul_le_mul hp2 hq2
    omega
  have hNU : umul p q = p * q := umul_eq _ _ (lt_trans hpq two_pow_256_lt_U)
  have hpU : p < 2 ^ 256 :=
    lt_of_le_of_lt (Nat.le_mul_of_pos_right p (by omega)) hpq
  have hqU : q < 2 ^ 256 :=
    lt_of_le_of_lt (Nat.le_mul_of_pos_left q (by omega)) hpq
  have hsub_q : usub q 1 = q - 1 := usub_eq _ _ (by omega) (lt_trans hqU two_pow_256_lt_U)
  have hsub_p : usub p 1 = p - 1 := usub_eq _ _ (by omega) (lt_trans hpU two_pow_256_lt_U)
  have hphiU : umul (q - 1) (p - 1) = (q - 1) * (p - 1) :=
    umul_eq _ _ (mul_lt_U (by omega) (by omega))
  have hphi1 : 1 < (q - 1) * (p - 1) := by
    rcases Nat.lt_or_ge p 3 with h3 | h3
    · have hp' : p - 1 = 1 := by omega
      rw [hp', Nat.mul_one]
      omega
    · have h := Nat.mul_le_mul (show 1 ≤ q - 1 by omega) (show 2 ≤ p - 1 by omega)
      omega
  have hphiLt : (q - 1) * (p - 1) < 2 ^ 256 := by
    have h1 : (q - 1) * (p - 1) ≤ q * p := Nat.mul_le_mul (by omega) (by omega)
    rw [Nat.mul_comm q p] at h1
    omega
  have hgcd' : Nat.gcd e ((q - 1) * (p - 1)) = 1 := by
    rw [Nat.mul_comm (q - 1) (p - 1)]
    exact hgcd
  have hmm : modinv e ((q - 1) * (p - 1)) = modinv (e % ((q - 1) * (p - 1))) ((q - 1) * (p - 1)) :=
    modinv_mod e _ hphi1 (lt_trans hphiLt two_pow_256_lt_U)
  have hgcdr : Nat.gcd (e % ((q - 1) * (p - 1))) ((q - 1) * (p - 1)) = 1 := by
    rw [← Nat.gcd_rec, Nat.gcd_comm]
    exact hgcd'
  have herLt : e % ((q - 1) * (p - 1)) < 2 ^ 256 :=
    lt_trans (Nat.mod_lt _ (by omega)) hphiLt
  have hinv0 := modinv_correct hgcdr hphi1 herLt hphiLt
  have hdlt : modinv e ((q - 1) * (p - 1)) < (q - 1) * (p - 1) := by
    rw [hmm]
    exact hinv0.2
  have hinv1 : e * modinv e ((q - 1) * (p - 1)) % ((q - 1) * (p - 1)) = 1 := by
    rw [hmm, Nat.mul_mod, Nat.mod_eq_of_lt hinv0.2]
    exact hinv0.1
  have he0 : e ≠ 0 := by
    intro h0
    rw [h0, Nat.gcd_zero_left] at hgcd'
    omega
  have hd0 : modinv e ((q - 1) * (p - 1)) ≠ 0 := by
    intro h0
    rw [h0, Nat.mul_zero, Nat.zero_mod] at hinv1
    exact absurd hinv1 (by omega)
  have hcop : Nat.Coprime p q := (Nat.coprime_primes hp hq).mpr hne
  by_cases hm0 : m = 0
  · subst hm0
    have henc : rsa_encrypt 0 (umul p q) e = 0 := by simp [rsa_encrypt, mod_exp]
    rw [henc]
    simp [rsa_decrypt, mod_exp]
  · have hc : rsa_encrypt m (umul p q) e = m ^ e % (p * q) := by
      unfold rsa_encrypt
      rw [hNU]
      exact mod_exp_correct hm0 he0 hN1 hpq (lt_trans hm hpq)
    have hc0 : m ^ e % (p * q) ≠ 0 := by
      intro h0
      have hdvd : p * q ∣ m ^ e := Nat.dvd_of_mod_eq_zero h0
      have hpm : p ∣ m := hp.dvd_of_dvd_pow ((dvd_mul_right p q).trans hdvd)
      have hqm : q ∣ m := hq.dvd_of_dvd_pow ((dvd_mul_left q p).trans hdvd)
      have hNm : p * q ∣ m := Nat.Coprime.mul_dvd_of_dvd_of_dvd hcop hpm hqm
      have hle : p * q ≤ m := Nat.le_of_dvd (by omega) hNm
      omega
    have hdec : rsa_decrypt (m ^ e % (p * q)) q p e
        = (m ^ e % (p * q)) ^ modinv e ((q - 1) * (p - 1)) % (p * q) := by
      simp only [rsa_decrypt]
      rw [hsub_q, hsub_p, hphiU, hNU]
      exact mod_exp_correct hc0 hd0 hN1 hpq
        (lt_trans (Nat.mod_lt _ (by omega)) hpq)
    have hed : e * modinv e ((q - 1) * (p - 1))
        = 1 + (q - 1) * (p - 1) * (e * modinv e ((q - 1) * (p - 1)) / ((q - 1) * (p - 1))) := by
      conv_lhs =>
        rw [← Nat.div_add_mod (e * modinv e ((q - 1) * (p - 1))) ((q - 1) * (p - 1))]
      rw [hinv1]
      exact Nat.add_comm _ 1
    have hkey : m ^ (e * modinv e ((q - 1) * (p - 1))) ≡ m [MOD p * q] := by
      rw [hed]
      have hmodp : m ^ (1 + (q - 1) * (p - 1)
          * (e * modinv e ((q - 1) * (p - 1)) / ((q - 1) * (p - 1)))) ≡ m [MOD p] := by
        have hre : (q - 1) * (p - 1)
            * (e * modinv e ((q - 1) * (p - 1)) / ((q - 1) * (p - 1)))
            = (p - 1) * ((q - 1) * (e * modinv e ((q - 1) * (p - 1)) / ((q - 1) * (p - 1)))) := by
          ring
        rw [hre]
        exact prime_pow_cycle hp m _
      have hmodq : m ^ (1 + (q - 1) * (p - 1)
          * (e * modinv e ((q - 1) * (p - 1)) / ((q - 1) * (p - 1)))) ≡ m [MOD q] := by
        have hre : (q - 1) * (p - 1)
            * (e * modinv e ((q - 1) * (p - 1)) / ((q - 1) * (p - 1)))
            = (q - 1) * ((p - 1) * (e * modinv e ((q - 1) * (p - 1)) / ((q - 1) * (p - 1)))) := by
          ring
        rw [hre]
        exact prime_pow_cycle hq m _
      exact (Nat.modEq_and_modEq_iff_modEq_mul hcop).mp ⟨hmodp, hmodq⟩
    have hkey' : m ^ (e * modinv e ((q - 1) * (p - 1))) % (p * q) = m % (p * q) := hkey
    rw [hc, hdec, ← Nat.pow_mod, ← Nat.pow_mul, hkey']
    exact Nat.mod_eq_of_lt hm

/-- C6 (witness): the amended theorem at the repository's own test
values p = 1223, q = 1987, e = 948047, m = 1070777. -/
theorem rsa_roundtrip_spec_witness :
    rsa_decrypt (rsa_encrypt 1070777 (umul 1223 1987) 948047) 1987 1223 948047 = 1070777 :=
  rsa_roundtrip_spec 1223 1987 948047 1070777 (by norm_num) (by norm_num)
    (by norm_num) (by decide) (by decide) (by decide) (by decide) (by decide) (by decide)

end AsymPkc
